import Mathlib

/-!
# openapi-cli: identifier transforms, label reversal and plugin discovery

A shallow embedding of `cmd/openapi/main.go`.

* A Go `string` is a sequence of bytes; `for i, c := range s` decodes UTF-8 and
  yields the byte offset `i` together with the rune `c`; `s[i-1]` is the single
  byte in front of that offset.
* `strings.Builder` is the byte sequence written so far.
* An index out of range is a run-time panic; functions that index return `Option`,
  with `none` for the panic.
* The Unicode range tables of the Go standard library are exact here for
  Latin-1 (`r ≤ 0xFF`), as in `unicode/graphic.go`, `unicode/letter.go` and
  `unicode/tables.go`; beyond Latin-1 they are a parameter (`UnicodeTables`).
-/

set_option autoImplicit false

namespace OpenapiCli

/-- A Go string: a sequence of bytes (each below 256), not necessarily valid UTF-8. -/
abbrev GoString := List Nat

/-! A Go rune (a code point) is a natural number here: every rune that arises in
these functions is non-negative. -/

/-! ## Package `unicode/utf8` -/

/-- The rune `utf8.RuneError`, U+FFFD. -/
def RuneError : Nat := 0xFFFD

/-- The table `first` of `unicode/utf8` joined with `acceptRanges`: for a leading
byte of a multi-byte sequence, the length of the sequence and the accepted
range of the second byte. `none` for an invalid leading byte. -/
def seqInfo (s0 : Nat) : Option (Nat × Nat × Nat) :=
  if 0xC2 ≤ s0 ∧ s0 ≤ 0xDF then some (2, 0x80, 0xBF)
  else if s0 = 0xE0 then some (3, 0xA0, 0xBF)
  else if 0xE1 ≤ s0 ∧ s0 ≤ 0xEC then some (3, 0x80, 0xBF)
  else if s0 = 0xED then some (3, 0x80, 0x9F)
  else if 0xEE ≤ s0 ∧ s0 ≤ 0xEF then some (3, 0x80, 0xBF)
  else if s0 = 0xF0 then some (4, 0x90, 0xBF)
  else if 0xF1 ≤ s0 ∧ s0 ≤ 0xF3 then some (4, 0x80, 0xBF)
  else if s0 = 0xF4 then some (4, 0x80, 0x8F)
  else none

/-- The function `utf8.DecodeRuneInString`: the first rune of `s` and its width in
bytes; `(RuneError, 1)` for an invalid or truncated encoding, `(RuneError, 0)` for
the empty string. Masks and shifts are written as `%` and `*`. -/
def DecodeRuneInString : GoString → Nat × Nat
  | [] => (RuneError, 0)
  | s0 :: rest =>
    if s0 < 0x80 then (s0, 1)
    else
      match seqInfo s0 with
      | none => (RuneError, 1)
      | some (sz, lo, hi) =>
        if rest.length + 1 < sz then (RuneError, 1)
        else
          let s1 := rest.getD 0 0
          let s2 := rest.getD 1 0
          let s3 := rest.getD 2 0
          if s1 < lo ∨ hi < s1 then (RuneError, 1)
          else if sz ≤ 2 then ((s0 % 32) * 64 + s1 % 64, 2)
          else if s2 < 0x80 ∨ 0xBF < s2 then (RuneError, 1)
          else if sz ≤ 3 then ((s0 % 16) * 4096 + (s1 % 64) * 64 + s2 % 64, 3)
          else if s3 < 0x80 ∨ 0xBF < s3 then (RuneError, 1)
          else ((s0 % 8) * 262144 + (s1 % 64) * 4096 + (s2 % 64) * 64 + s3 % 64, 4)

/-- The function `utf8.AppendRune` on an empty destination: the UTF-8 encoding of
`r`; a surrogate or a value above `MaxRune` is encoded as `RuneError`. -/
def EncodeRune (r : Nat) : GoString :=
  if r < 0x80 then [r]
  else if r < 0x800 then [0xC0 + r / 64, 0x80 + r % 64]
  else if 0x10FFFF < r ∨ (0xD800 ≤ r ∧ r ≤ 0xDFFF) then [0xEF, 0xBF, 0xBD]
  else if r < 0x10000 then [0xE0 + r / 4096, 0x80 + (r / 64) % 64, 0x80 + r % 64]
  else [0xF0 + r / 262144, 0x80 + (r / 4096) % 64, 0x80 + (r / 64) % 64, 0x80 + r % 64]

/-- The loop `for i, c := range s` from byte offset `i`, with `skip` bytes of the
current rune still to pass over: the pairs `(i, c)` in order. -/
def rangeFrom : Nat → Nat → GoString → List (Nat × Nat)
  | _, _, [] => []
  | i, 0, b :: rest =>
    (i, (DecodeRuneInString (b :: rest)).1) ::
      rangeFrom (i + 1) ((DecodeRuneInString (b :: rest)).2 - 1) rest
  | i, skip + 1, _ :: rest => rangeFrom (i + 1) skip rest

/-- The pairs `(i, c)` that `for i, c := range s` yields. -/
def rangeString (s : GoString) : List (Nat × Nat) := rangeFrom 0 0 s

/-- The bytes of a Lean string literal (its UTF-8 encoding), as a Go string. -/
def str (s : String) : GoString := s.toList.flatMap fun c => EncodeRune c.toNat

/-! ## Package `unicode` -/

/-- The range tables of package `unicode` beyond Latin-1: membership in `Upper`,
`Lower`, `Digit` and `Letter`, and the case mappings `To(UpperCase, r)` and
`To(LowerCase, r)`. They are consulted only for `r > 0xFF`. -/
structure UnicodeTables where
  upper : Nat → Bool
  lower : Nat → Bool
  digit : Nat → Bool
  letter : Nat → Bool
  toUpper : Nat → Nat
  toLower : Nat → Nat

/-- Latin-1 runes whose entry in `properties` is `pLu`. -/
def latin1Upper (r : Nat) : Bool :=
  (0x41 ≤ r && r ≤ 0x5A) || (0xC0 ≤ r && r ≤ 0xD6) || (0xD8 ≤ r && r ≤ 0xDE)

/-- Latin-1 runes whose entry in `properties` is `pLl`. -/
def latin1Lower (r : Nat) : Bool :=
  (0x61 ≤ r && r ≤ 0x7A) || r == 0xB5 || (0xDF ≤ r && r ≤ 0xF6) || (0xF8 ≤ r && r ≤ 0xFF)

/-- Latin-1 runes whose entry in `properties` has a bit of `pLmask`: upper, lower,
and the two `pLo` runes U+00AA and U+00BA. -/
def latin1Letter (r : Nat) : Bool :=
  latin1Upper r || latin1Lower r || r == 0xAA || r == 0xBA

/-- The function `unicode.IsUpper`. -/
def IsUpper (U : UnicodeTables) (r : Nat) : Bool :=
  if r ≤ 0xFF then latin1Upper r else U.upper r

/-- The function `unicode.IsLower`. -/
def IsLower (U : UnicodeTables) (r : Nat) : Bool :=
  if r ≤ 0xFF then latin1Lower r else U.lower r

/-- The function `unicode.IsLetter`. -/
def IsLetter (U : UnicodeTables) (r : Nat) : Bool :=
  if r ≤ 0xFF then latin1Letter r else U.letter r

/-- The function `unicode.IsDigit`. -/
def IsDigit (U : UnicodeTables) (r : Nat) : Bool :=
  if r ≤ 0xFF then (0x30 ≤ r && r ≤ 0x39) else U.digit r

/-- The function `unicode.ToUpper`: the ASCII fast path, then the entries of
`CaseRanges` that lie in Latin-1, then the table. -/
def ToUpper (U : UnicodeTables) (r : Nat) : Nat :=
  if r ≤ 0x7F then (if 0x61 ≤ r ∧ r ≤ 0x7A then r - 32 else r)
  else if r ≤ 0xFF then
    if r = 0xB5 then 0x39C
    else if (0xE0 ≤ r ∧ r ≤ 0xF6) ∨ (0xF8 ≤ r ∧ r ≤ 0xFE) then r - 32
    else if r = 0xFF then 0x178
    else r
  else U.toUpper r

/-- The function `unicode.ToLower`: the ASCII fast path, then the entries of
`CaseRanges` that lie in Latin-1, then the table. -/
def ToLower (U : UnicodeTables) (r : Nat) : Nat :=
  if r ≤ 0x7F then (if 0x41 ≤ r ∧ r ≤ 0x5A then r + 32 else r)
  else if r ≤ 0xFF then
    if (0xC0 ≤ r ∧ r ≤ 0xD6) ∨ (0xD8 ≤ r ∧ r ≤ 0xDE) then r + 32 else r
  else U.toLower r

/-! ## Packages `strings` -/

/-- The method `(*strings.Builder).WriteRune`: append the encoding of `r`. -/
def WriteRune (buf : GoString) (r : Nat) : GoString := buf ++ EncodeRune r

/-- The function `strings.Map` for a mapping that never returns a negative rune:
every rune of `s` (an invalid byte counts as `RuneError`) is replaced by the
encoding of its image. -/
def stringsMap (f : Nat → Nat) (s : GoString) : GoString :=
  (rangeString s).flatMap fun ic => EncodeRune (f ic.2)

/-- The function `strings.ToLower`; its ASCII fast path agrees with the general
path `Map(unicode.ToLower, s)`. -/
def stringsToLower (U : UnicodeTables) (s : GoString) : GoString :=
  stringsMap (ToLower U) s

/-- The function `strings.ToUpper`; its ASCII fast path agrees with the general
path `Map(unicode.ToUpper, s)`. -/
def stringsToUpper (U : UnicodeTables) (s : GoString) : GoString :=
  stringsMap (ToUpper U) s

/-! ## The identifier transforms of `main.go` -/

/-- One iteration of the loop of `toKebab` at `(i, c)`, on the builder `buf`.
Whenever `i ≠ 0` the source reads `s[i-1]` (in the first, second or third
condition), so the read is done once, up front. -/
def kebabStep (U : UnicodeTables) (s buf : GoString) (ic : Nat × Nat) : Option GoString :=
  if ic.1 = 0 then some (WriteRune buf ic.2)
  else
    match s[ic.1 - 1]? with
    | none => none
    | some p =>
      if IsUpper U ic.2 && IsLower U p then some (WriteRune (WriteRune buf 0x2D) ic.2)
      else if IsDigit U ic.2 && !IsDigit U p then some (WriteRune (WriteRune buf 0x2D) ic.2)
      else if !IsDigit U ic.2 && IsDigit U p then some (WriteRune (WriteRune buf 0x2D) ic.2)
      else if !IsDigit U ic.2 && !IsLetter U ic.2 && ic.2 != 0x2D then some (WriteRune buf 0x2D)
      else some (WriteRune buf ic.2)

/-- The loop of `toKebab` over the remaining pairs of `range s`. -/
def kebabLoop (U : UnicodeTables) (s : GoString) : List (Nat × Nat) → GoString → Option GoString
  | [], buf => some buf
  | ic :: rest, buf =>
    match kebabStep U s buf ic with
    | none => none
    | some buf1 => kebabLoop U s rest buf1

/-- The function `toKebab`. -/
def toKebab (U : UnicodeTables) (s : GoString) : Option GoString :=
  (kebabLoop U s (rangeString s) []).map (stringsToLower U)

/-- One iteration of the loop of `toSnake` at `(i, c)`, on the builder `buf`. -/
def snakeStep (U : UnicodeTables) (s buf : GoString) (ic : Nat × Nat) : Option GoString :=
  if ic.1 = 0 then some (WriteRune buf (ToLower U ic.2))
  else
    match s[ic.1 - 1]? with
    | none => none
    | some p =>
      if IsUpper U ic.2 && IsLower U p then some (WriteRune (WriteRune buf 0x5F) ic.2)
      else if IsDigit U ic.2 && !IsDigit U p then some (WriteRune (WriteRune buf 0x5F) ic.2)
      else if !IsDigit U ic.2 && IsDigit U p then some (WriteRune (WriteRune buf 0x5F) ic.2)
      else if !IsDigit U ic.2 && !IsLetter U ic.2 && ic.2 != 0x5F then some (WriteRune buf 0x5F)
      else some (WriteRune buf ic.2)

/-- The loop of `toSnake` over the remaining pairs of `range s`. -/
def snakeLoop (U : UnicodeTables) (s : GoString) : List (Nat × Nat) → GoString → Option GoString
  | [], buf => some buf
  | ic :: rest, buf =>
    match snakeStep U s buf ic with
    | none => none
    | some buf1 => snakeLoop U s rest buf1

/-- The function `toSnake`. -/
def toSnake (U : UnicodeTables) (s : GoString) : Option GoString :=
  (snakeLoop U s (rangeString s) []).map (stringsToLower U)

/-- The function `toFlag`. -/
def toFlag (U : UnicodeTables) (s : GoString) : Option GoString :=
  (toKebab U s).map fun k => str "--" ++ k

/-- The function `toEnum`. -/
def toEnum (U : UnicodeTables) (s : GoString) : Option GoString :=
  (toSnake U s).map (stringsToUpper U)

/-- One iteration of the loop of `toCamel` at `(i, c)`, on the builder and the
flag `changeCase`. -/
def camelStep (U : UnicodeTables) (st : GoString × Bool) (ic : Nat × Nat) : GoString × Bool :=
  if ic.1 = 0 then (WriteRune st.1 ic.2, st.2)
  else if !IsDigit U ic.2 && !IsLetter U ic.2 then (st.1, true)
  else if st.2 then (WriteRune st.1 (ToUpper U ic.2), false)
  else (WriteRune st.1 ic.2, st.2)

/-- The function `toCamel`. -/
def toCamel (U : UnicodeTables) (s : GoString) : GoString :=
  ((rangeString s).foldl (camelStep U) ([], false)).1

/-- One iteration of the loop of `toPascal` at `(i, c)`, on the builder and the
flag `changeCase`. -/
def pascalStep (U : UnicodeTables) (st : GoString × Bool) (ic : Nat × Nat) : GoString × Bool :=
  if ic.1 = 0 then (WriteRune st.1 (ToUpper U ic.2), st.2)
  else if !IsDigit U ic.2 && !IsLetter U ic.2 then (st.1, true)
  else if st.2 then (WriteRune st.1 (ToUpper U ic.2), false)
  else (WriteRune st.1 ic.2, st.2)

/-- The function `toPascal`. -/
def toPascal (U : UnicodeTables) (s : GoString) : GoString :=
  ((rangeString s).foldl (pascalStep U) ([], false)).1

/-- Tables with nothing beyond Latin-1: no letters, no digits, identity case
mappings. Used to evaluate the transforms on inputs whose runes are all Latin-1,
where the tables are never consulted. -/
def latin1Tables : UnicodeTables :=
  ⟨fun _ => false, fun _ => false, fun _ => false, fun _ => false, id, id⟩

/-- Every byte of `s` and every rune of `range s` is at most `0xFF`. -/
def isLatin1 (s : GoString) : Bool :=
  s.all (fun b => decide (b ≤ 0xFF)) && (rangeString s).all (fun ic => decide (ic.2 ≤ 0xFF))

/-- The string `o`, when present, is Latin-1. -/
def optLatin1 (o : Option GoString) : Bool :=
  match o with
  | none => true
  | some b => isLatin1 b

/-! ## Auxiliary definitions for the separator loops -/

/-- What an iteration with `i ≠ 0` of the loop of `toKebab` (`sep` is `-`) or of
`toSnake` (`sep` is `_`) appends to the builder, for the rune `c` when the byte in
front of it is `p`. -/
def sepPiece (U : UnicodeTables) (sep p : Nat) (c : Nat) : GoString :=
  if IsUpper U c && IsLower U p then EncodeRune sep ++ EncodeRune c
  else if IsDigit U c && !IsDigit U p then EncodeRune sep ++ EncodeRune c
  else if !IsDigit U c && IsDigit U p then EncodeRune sep ++ EncodeRune c
  else if !IsDigit U c && !IsLetter U c && c != sep then EncodeRune sep
  else EncodeRune c

/-- What the iterations over the ASCII bytes `rest`, which follow the byte `p`,
append to the builder. -/
def sepOut (U : UnicodeTables) (sep : Nat) : Nat → GoString → GoString
  | _, [] => []
  | p, c :: rest => sepPiece U sep p c ++ sepOut U sep c rest

/-- Two adjacent bytes of the string are both `sep`. -/
def hasDouble (sep : Nat) : GoString → Bool
  | a :: b :: rest => (a == sep && b == sep) || hasDouble sep (b :: rest)
  | _ => false

/-- Every character that is neither a letter nor a digit is directly followed by
a letter, or ends the string. -/
def sepBeforeLetter (U : UnicodeTables) : GoString → Bool
  | a :: b :: rest =>
    (IsDigit U a || IsLetter U a || IsLetter U b) && sepBeforeLetter U (b :: rest)
  | _ => true

/-- A byte of a kebab-case word: `-` or an ASCII lowercase letter. -/
def kebabByte (x : Nat) : Prop := x = 0x2D ∨ (0x61 ≤ x ∧ x ≤ 0x7A)

/-! ## More of package `strings`, and `filepath.Base` -/

/-- The function `strings.HasPrefix`. -/
def stringsHasPrefix (s pre : GoString) : Bool := pre.isPrefixOf s

/-- The function `strings.TrimLeft` for an ASCII `cutset`: the leading bytes of `s`
that occur in `cutset` are removed. -/
def stringsTrimLeft (s cutset : GoString) : GoString :=
  s.dropWhile fun b => cutset.contains b

/-- The parts of `s` before and after the first occurrence of the non-empty `sep`
(`strings.Index`); `none` when `sep` does not occur. -/
def cutFirst (sep : GoString) : GoString → Option (GoString × GoString)
  | [] => none
  | b :: rest =>
    if sep.isPrefixOf (b :: rest) then some ([], (b :: rest).drop sep.length)
    else
      match cutFirst sep rest with
      | none => none
      | some (before, after) => some (b :: before, after)

/-- The call `strings.SplitN(s, sep, 2)` for a non-empty `sep`: `s` cut at the
first occurrence of `sep`, or `s` alone when there is none. -/
def stringsSplitN2 (s sep : GoString) : List GoString :=
  match cutFirst sep s with
  | none => [s]
  | some (before, after) => [before, after]

/-- The loop of `strings.Split` for a non-empty `sep`: `skip` bytes of a separator
just found are still to pass over, `cur` is the segment read so far. -/
def splitFrom (sep : GoString) : Nat → GoString → GoString → List GoString
  | _, cur, [] => [cur]
  | skip + 1, cur, _ :: rest => splitFrom sep skip cur rest
  | 0, cur, b :: rest =>
    if sep.isPrefixOf (b :: rest) then cur :: splitFrom sep (sep.length - 1) [] rest
    else splitFrom sep 0 (cur ++ [b]) rest

/-- The function `strings.Split` for a non-empty `sep` (an empty `sep`, which
splits after each UTF-8 sequence, is not modelled): the segments between the
successive, non-overlapping occurrences of `sep`, empty segments kept. -/
def stringsSplit (s sep : GoString) : List GoString := splitFrom sep 0 [] s

/-- The function `strings.Join`. -/
def stringsJoin : List GoString → GoString → GoString
  | [], _ => []
  | [a], _ => a
  | a :: b :: rest, sep => a ++ sep ++ stringsJoin (b :: rest) sep

/-- The function `filepath.Base` on Unix: the last element of `path`, after
trailing slashes are removed; `.` for the empty path and `/` for a path of
slashes only. -/
def filepathBase (path : GoString) : GoString :=
  if path = [] then str "."
  else
    let stripped := (path.reverse.dropWhile fun b => b == 0x2F).reverse
    let last := (stripped.reverse.takeWhile fun b => b != 0x2F).reverse
    if last = [] then str "/" else last

/-! ## `SplitReverse` -/

/-- The call `fn(parts[i])` guarded by `fn != nil`: a `nil` function leaves the
part as it is; a function may panic (`none`). -/
def applyFn (fn : Option (GoString → Option GoString)) (part : GoString) : Option GoString :=
  match fn with
  | none => some part
  | some f => f part

/-- The loop `for i := len(parts) - 1; i >= 0; i--` of `SplitReverse`, entered with
`n = i + 1`. -/
def splitReverseLoop (parts : List GoString) (fn : Option (GoString → Option GoString)) :
    Nat → List GoString → Option (List GoString)
  | 0, reversed => some reversed
  | i + 1, reversed =>
    match parts[i]? with
    | none => none
    | some part0 =>
      match applyFn fn part0 with
      | none => none
      | some part => splitReverseLoop parts fn i (reversed ++ [part])

/-- The function `SplitReverse`. -/
def SplitReverse (s sep : GoString) (fn : Option (GoString → Option GoString)) :
    Option GoString :=
  (splitReverseLoop (stringsSplit s sep) fn (stringsSplit s sep).length []).map
    fun reversed => stringsJoin reversed (str ".")

/-- The function literal passed to `SplitReverse` in `main`:
`string(unicode.ToUpper(rune(s[0]))) + s[1:]`; it panics on the empty string. -/
def upperFirst (U : UnicodeTables) (s : GoString) : Option GoString :=
  match s with
  | [] => none
  | b :: rest => some (EncodeRune (ToUpper U b) ++ rest)

/-- The transform applied to each segment in turn: the list of results, or `none`
when the transform fails on a segment. -/
def mapParts (fn : Option (GoString → Option GoString)) : List GoString → Option (List GoString)
  | [] => some []
  | part :: rest =>
    match applyFn fn part with
    | none => none
    | some q =>
      match mapParts fn rest with
      | none => none
      | some qs => some (q :: qs)

/-- The specification of `reverse_split`: split `s` on every occurrence of the
separator, apply the transform (identity if none is given) to each segment,
reverse the order of the segments, and join them with `.`. -/
def reverseSplitSpec (s sep : GoString) (fn : Option (GoString → Option GoString)) :
    Option GoString :=
  (mapParts fn (stringsSplit s sep)).map
    fun segments => stringsJoin segments.reverse (str ".")

/-! ## Plugin discovery in `main` -/

/-- The type `Plugin`. -/
structure Plugin where
  Name : GoString
  Kind : GoString
  Path : GoString
  deriving DecidableEq, Repr

/-- The map `params`, of type `map[string][]Plugin`: an association list with
distinct keys. -/
abbrev Registry := List (GoString × List Plugin)

/-- The read `params[k]`, with `none` for an absent key. -/
def mapGet (m : Registry) (k : GoString) : Option (List Plugin) :=
  match m with
  | [] => none
  | (k1, v) :: rest => if k1 = k then some v else mapGet rest k

/-- The assignment `params[k] = v`. -/
def mapSet (m : Registry) (k : GoString) (v : List Plugin) : Registry :=
  match m with
  | [] => [(k, v)]
  | (k1, v1) :: rest => if k1 = k then (k, v) :: rest else (k1, v1) :: mapSet rest k v

/-- The string `"openapi-gen-"` of the walk function. -/
def pluginPrefix : GoString := str "openapi-gen-"

/-- The function passed to `filepath.Walk`, on the map `params` and the visited
`path`: the new map, or `none` when it panics on `parts[1]`. (`parts[0]` always
exists, `SplitN` returns at least one part.) -/
def walkFn (params : Registry) (path : GoString) : Option Registry :=
  let base := filepathBase path
  if stringsHasPrefix base pluginPrefix then
    let name := stringsTrimLeft base pluginPrefix
    let parts := stringsSplitN2 name (str "-")
    match parts[0]? with
    | none => none
    | some kind =>
      let params1 := if (mapGet params kind).isNone then mapSet params kind [] else params
      match parts[1]? with
      | none => none
      | some nm =>
        some (mapSet params1 kind
          ((mapGet params1 kind).getD [] ++ [{ Name := nm, Kind := kind, Path := path }]))
  else some params

/-- The calls of the walk function that `filepath.Walk(dir, ...)` makes, one for
each visited path of the directory, in order. -/
def walkDir (params : Registry) : List GoString → Option Registry
  | [] => some params
  | path :: rest =>
    match walkFn params path with
    | none => none
    | some params1 => walkDir params1 rest

/-- The loop `for _, dir := range pathDirs` of `main`; each directory is given by
the paths that `filepath.Walk` visits in it. -/
def discoverFrom (params : Registry) : List (List GoString) → Option Registry
  | [] => some params
  | dir :: rest =>
    match walkDir params dir with
    | none => none
    | some params1 => discoverFrom params1 rest

/-- Plugin discovery as `main` runs it: the loop started on the empty map. -/
def discover (dirs : List (List GoString)) : Option Registry := discoverFrom [] dirs

/-- A Unicode scalar value: at most `MaxRune` and not a surrogate. -/
def validRune (r : Nat) : Prop := r ≤ 0x10FFFF ∧ ¬ (0xD800 ≤ r ∧ r ≤ 0xDFFF)

/-! ## Auxiliary definitions for plugin discovery -/

/-- A scanned entry together with the kind and the name its file name spells. -/
structure Entry where
  path : GoString
  kind : GoString
  name : GoString

/-- The entry is named `openapi-gen-cli-<name>` or `openapi-gen-lib-<name>`: the
base name of its path is the literal `openapi-gen-`, the kind `cli` or `lib`, a
`-`, and the name. -/
def Entry.wellFormed (e : Entry) : Prop :=
  (e.kind = str "cli" ∨ e.kind = str "lib") ∧
    filepathBase e.path = pluginPrefix ++ e.kind ++ str "-" ++ e.name

/-- The plugin that the entry stands for. -/
def Entry.toPlugin (e : Entry) : Plugin := { Name := e.name, Kind := e.kind, Path := e.path }

/-- The plugins of kind `k` among `ps`, in order, duplicates kept. -/
def pluginsOfKind (k : GoString) (ps : List Plugin) : List Plugin :=
  ps.filter fun p => decide (p.Kind = k)

/-- The list under a key after the plugins `l` were appended to what `o` held: the
key stays absent when there was nothing to append. -/
def appendedTo (o : Option (List Plugin)) (l : List Plugin) : Option (List Plugin) :=
  if l = [] then o else some (o.getD [] ++ l)

/-- A path that `filepath.Walk` passes to the walk function: the directory
itself, a sub-directory or a file that is no plugin (`other`), or an entry named
as a plugin (`entry`). -/
inductive Visited where
  | other (path : GoString)
  | entry (e : Entry)

/-- The path of what was visited. -/
def Visited.path : Visited → GoString
  | .other p => p
  | .entry e => e.path

/-- What a scan of `cli` and `lib` plugins may visit: a path whose base name does
not start with `openapi-gen-`, or a well-formed entry. -/
def Visited.admissible : Visited → Prop
  | .other p => stringsHasPrefix (filepathBase p) pluginPrefix = false
  | .entry e => e.wellFormed

/-- The plugins that a visited path stands for: none, or the entry's plugin. -/
def Visited.plugins : Visited → List Plugin
  | .other _ => []
  | .entry e => [e.toPlugin]

/-- Every plugin stored under a key of the map has that key as its `Kind`. -/
def kindsMatchKeys (m : Registry) : Prop :=
  ∀ kv ∈ m, ∀ p ∈ kv.2, p.Kind = kv.1

/-! ## Tag collection in `cmdRoot` -/

/-- The fields of `openapi3.Operation` that `cmdRoot` reads. The extension
`x-operation-name` is absent (`none`), present but no `json.RawMessage`
(`some none`), or present with its raw bytes. -/
structure OperationDoc where
  Tags : List GoString
  OperationID : GoString
  XOperationName : Option (Option GoString)

/-- The fields of the loaded document that `cmdRoot` reads: the names of
`doc.Tags`, and `doc.Paths` with the operations of each path by method, in the
order in which the two `range` loops visit them (any order: Go does not fix
it). -/
structure Document where
  Tags : List GoString
  Paths : List (GoString × List (GoString × OperationDoc))

/-- The assignment `tags[t] = struct{}{}` on the set `tags`, kept as a list of its
distinct keys. -/
def setInsert (tags : List GoString) (t : GoString) : List GoString :=
  if t ∈ tags then tags else tags ++ [t]

/-- The block `if ext, ok := op.Extensions["x-operation-name"]; ok { ... }`: `none`
when it panics, on a value that is no `json.RawMessage` or on an error of
`json.Unmarshal` (the parameter `unmarshal`). -/
def decodeExtension (unmarshal : GoString → Option GoString) (op : OperationDoc) :
    Option Unit :=
  match op.XOperationName with
  | none => some ()
  | some none => none
  | some (some raw) =>
    match unmarshal raw with
    | none => none
    | some _ => some ()

/-- The statement `if len(op.Tags) > 0 { tags[op.Tags[0]] = struct{}{} }`. -/
def collectFirstTag (tags : List GoString) (opTags : List GoString) : List GoString :=
  match opTags with
  | [] => tags
  | t :: _ => setInsert tags t

/-- The body of the inner loop of `cmdRoot` for one operation, on the set `tags`:
the extension block, the first tag, and the six transforms of the operation
identifier that are printed. -/
def operationStep (unmarshal : GoString → Option GoString) (U : UnicodeTables)
    (tags : List GoString) (op : OperationDoc) : Option (List GoString) :=
  match decodeExtension unmarshal op with
  | none => none
  | some _ =>
    match toKebab U op.OperationID, toSnake U op.OperationID, toFlag U op.OperationID,
      toEnum U op.OperationID with
    | some _, some _, some _, some _ => some (collectFirstTag tags op.Tags)
    | _, _, _, _ => none

/-- The loop `for method, op := range value.Operations()`. -/
def operationsLoop (unmarshal : GoString → Option GoString) (U : UnicodeTables)
    (tags : List GoString) : List (GoString × OperationDoc) → Option (List GoString)
  | [] => some tags
  | mo :: rest =>
    match operationStep unmarshal U tags mo.2 with
    | none => none
    | some tags1 => operationsLoop unmarshal U tags1 rest

/-- The loop `for path, value := range doc.Paths`. -/
def pathsLoop (unmarshal : GoString → Option GoString) (U : UnicodeTables)
    (tags : List GoString) :
    List (GoString × List (GoString × OperationDoc)) → Option (List GoString)
  | [] => some tags
  | pv :: rest =>
    match operationsLoop unmarshal U tags pv.2 with
    | none => none
    | some tags1 => pathsLoop unmarshal U tags1 rest

/-- The set `tags` that `cmdRoot` has collected when its loops end, for a document
that was loaded and validated. -/
def collectTags (unmarshal : GoString → Option GoString) (U : UnicodeTables)
    (doc : Document) : Option (List GoString) :=
  pathsLoop unmarshal U (collectFirstTag [] doc.Tags) doc.Paths

/-- The extension of the operation, when present, is a raw message that
`json.Unmarshal` decodes. -/
def extensionDecodes (unmarshal : GoString → Option GoString) (op : OperationDoc) : Bool :=
  (decodeExtension unmarshal op).isSome

/-! ## Auxiliary definitions: the separator loops as lists of runes -/

/-- The runes that an iteration with `i ≠ 0` of the loop of `toKebab` or of
`toSnake` writes, for the rune `c` when the byte in front of it is `p`. -/
def sepRunes (U : UnicodeTables) (sep p c : Nat) : List Nat :=
  if IsUpper U c && IsLower U p then [sep, c]
  else if IsDigit U c && !IsDigit U p then [sep, c]
  else if !IsDigit U c && IsDigit U p then [sep, c]
  else if !IsDigit U c && !IsLetter U c && c != sep then [sep]
  else [c]

/-- The runes that the iterations over the pairs `(i, c)` write, each with the
byte `s[i-1]` in front of it. -/
def loopRunes (U : UnicodeTables) (sep : Nat) (s : GoString) : List (Nat × Nat) → List Nat
  | [] => []
  | ic :: rest => sepRunes U sep (s.getD (ic.1 - 1) 0) ic.2 ++ loopRunes U sep s rest

/-- The bytes that `WriteRune` writes for a list of runes. -/
def encodeRunes (rs : List Nat) : GoString := rs.flatMap EncodeRune

/-- The call `strings.ReplaceAll(s, a, b)` for single bytes `a` and `b`. -/
def replaceByte (a b : Nat) (s : GoString) : GoString :=
  s.map fun x => if x = a then b else x

/-! ## Theorems -/

section Tables

variable (U V : UnicodeTables)

theorem IsUpper_congr {r : Nat} (h : r ≤ 0xFF) : IsUpper U r = IsUpper V r := by
  simp [IsUpper, h]

theorem IsLower_congr {r : Nat} (h : r ≤ 0xFF) : IsLower U r = IsLower V r := by
  simp [IsLower, h]

theorem IsLetter_congr {r : Nat} (h : r ≤ 0xFF) : IsLetter U r = IsLetter V r := by
  simp [IsLetter, h]

theorem IsDigit_congr {r : Nat} (h : r ≤ 0xFF) : IsDigit U r = IsDigit V r := by
  simp [IsDigit, h]

theorem ToUpper_congr {r : Nat} (h : r ≤ 0xFF) : ToUpper U r = ToUpper V r := by
  simp [ToUpper, h]

theorem ToLower_congr {r : Nat} (h : r ≤ 0xFF) : ToLower U r = ToLower V r := by
  simp [ToLower, h]

theorem flatMap_congr_mem {α β : Type} {l : List α} {f g : α → List β}
    (h : ∀ a ∈ l, f a = g a) : l.flatMap f = l.flatMap g := by
  induction l with
  | nil => rfl
  | cons a l ih =>
    simp only [List.flatMap_cons]
    rw [h a (List.mem_cons_self _ _), ih (fun b hb => h b (List.mem_cons_of_mem _ hb))]

theorem isLatin1_bytes {s : GoString} (h : isLatin1 s = true) : ∀ b ∈ s, b ≤ 0xFF := by
  simp only [isLatin1, Bool.and_eq_true, List.all_eq_true, decide_eq_true_eq] at h
  exact h.1

theorem isLatin1_runes {s : GoString} (h : isLatin1 s = true) :
    ∀ ic ∈ rangeString s, ic.2 ≤ 0xFF := by
  simp only [isLatin1, Bool.and_eq_true, List.all_eq_true, decide_eq_true_eq] at h
  exact h.2

theorem stringsToLower_congr {s : GoString} (h : isLatin1 s = true) :
    stringsToLower U s = stringsToLower V s := by
  unfold stringsToLower stringsMap
  exact flatMap_congr_mem fun ic hic => by rw [ToLower_congr U V (isLatin1_runes h ic hic)]

theorem stringsToUpper_congr {s : GoString} (h : isLatin1 s = true) :
    stringsToUpper U s = stringsToUpper V s := by
  unfold stringsToUpper stringsMap
  exact flatMap_congr_mem fun ic hic => by rw [ToUpper_congr U V (isLatin1_runes h ic hic)]

theorem kebabStep_congr {s : GoString} (hs : ∀ b ∈ s, b ≤ 0xFF) (buf : GoString)
    {ic : Nat × Nat} (hc : ic.2 ≤ 0xFF) : kebabStep U s buf ic = kebabStep V s buf ic := by
  unfold kebabStep
  split
  · rfl
  · cases hp : s[ic.1 - 1]? with
    | none => rfl
    | some p =>
      have hp1 : p ≤ 0xFF := hs p (List.getElem?_mem hp)
      simp only [IsUpper_congr U V hc, IsLower_congr U V hp1, IsDigit_congr U V hc,
        IsDigit_congr U V hp1, IsLetter_congr U V hc]

theorem kebabLoop_congr {s : GoString} (hs : ∀ b ∈ s, b ≤ 0xFF) (l : List (Nat × Nat))
    (hl : ∀ ic ∈ l, ic.2 ≤ 0xFF) (buf : GoString) :
    kebabLoop U s l buf = kebabLoop V s l buf := by
  induction l generalizing buf with
  | nil => rfl
  | cons ic l ih =>
    simp only [kebabLoop]
    rw [kebabStep_congr U V hs buf (hl ic (List.mem_cons_self _ _))]
    cases kebabStep V s buf ic with
    | none => rfl
    | some b => exact ih (fun x hx => hl x (List.mem_cons_of_mem _ hx)) b

theorem snakeStep_congr {s : GoString} (hs : ∀ b ∈ s, b ≤ 0xFF) (buf : GoString)
    {ic : Nat × Nat} (hc : ic.2 ≤ 0xFF) : snakeStep U s buf ic = snakeStep V s buf ic := by
  unfold snakeStep
  split
  · rw [ToLower_congr U V hc]
  · cases hp : s[ic.1 - 1]? with
    | none => rfl
    | some p =>
      have hp1 : p ≤ 0xFF := hs p (List.getElem?_mem hp)
      simp only [IsUpper_congr U V hc, IsLower_congr U V hp1, IsDigit_congr U V hc,
        IsDigit_congr U V hp1, IsLetter_congr U V hc]

theorem snakeLoop_congr {s : GoString} (hs : ∀ b ∈ s, b ≤ 0xFF) (l : List (Nat × Nat))
    (hl : ∀ ic ∈ l, ic.2 ≤ 0xFF) (buf : GoString) :
    snakeLoop U s l buf = snakeLoop V s l buf := by
  induction l generalizing buf with
  | nil => rfl
  | cons ic l ih =>
    simp only [snakeLoop]
    rw [snakeStep_congr U V hs buf (hl ic (List.mem_cons_self _ _))]
    cases snakeStep V s buf ic with
    | none => rfl
    | some b => exact ih (fun x hx => hl x (List.mem_cons_of_mem _ hx)) b

/-- On a Latin-1 input whose builder content is Latin-1 too, `toKebab` does not
depend on the tables. -/
theorem toKebab_congr {s : GoString} (h : isLatin1 s = true)
    (hb : optLatin1 (kebabLoop V s (rangeString s) []) = true) :
    toKebab U s = toKebab V s := by
  unfold toKebab
  rw [kebabLoop_congr U V (isLatin1_bytes h) _ (isLatin1_runes h)]
  cases hk : kebabLoop V s (rangeString s) [] with
  | none => rfl
  | some b =>
    rw [hk] at hb
    simp only [Option.map_some', stringsToLower_congr U V hb]

/-- On a Latin-1 input whose builder content is Latin-1 too, `toSnake` does not
depend on the tables. -/
theorem toSnake_congr {s : GoString} (h : isLatin1 s = true)
    (hb : optLatin1 (snakeLoop V s (rangeString s) []) = true) :
    toSnake U s = toSnake V s := by
  unfold toSnake
  rw [snakeLoop_congr U V (isLatin1_bytes h) _ (isLatin1_runes h)]
  cases hk : snakeLoop V s (rangeString s) [] with
  | none => rfl
  | some b =>
    rw [hk] at hb
    simp only [Option.map_some', stringsToLower_congr U V hb]

theorem toFlag_congr {s : GoString} (h : isLatin1 s = true)
    (hb : optLatin1 (kebabLoop V s (rangeString s) []) = true) :
    toFlag U s = toFlag V s := by
  unfold toFlag
  rw [toKebab_congr U V h hb]

theorem toEnum_congr {s : GoString} (h : isLatin1 s = true)
    (hb : optLatin1 (snakeLoop V s (rangeString s) []) = true)
    (hu : optLatin1 (toSnake V s) = true) :
    toEnum U s = toEnum V s := by
  unfold toEnum
  rw [toSnake_congr U V h hb]
  cases hk : toSnake V s with
  | none => rfl
  | some b =>
    rw [hk] at hu
    simp only [Option.map_some', stringsToUpper_congr U V hu]

theorem camelStep_congr (st : GoString × Bool) {ic : Nat × Nat} (hc : ic.2 ≤ 0xFF) :
    camelStep U st ic = camelStep V st ic := by
  unfold camelStep
  simp only [IsDigit_congr U V hc, IsLetter_congr U V hc, ToUpper_congr U V hc]

theorem pascalStep_congr (st : GoString × Bool) {ic : Nat × Nat} (hc : ic.2 ≤ 0xFF) :
    pascalStep U st ic = pascalStep V st ic := by
  unfold pascalStep
  simp only [IsDigit_congr U V hc, IsLetter_congr U V hc, ToUpper_congr U V hc]

theorem foldl_congr_mem {α β : Type} {f g : β → α → β} (l : List α)
    (h : ∀ b, ∀ a ∈ l, f b a = g b a) (b : β) : l.foldl f b = l.foldl g b := by
  induction l generalizing b with
  | nil => rfl
  | cons a l ih =>
    simp only [List.foldl_cons]
    rw [h b a (List.mem_cons_self _ _)]
    exact ih (fun b x hx => h b x (List.mem_cons_of_mem _ hx)) _

theorem toCamel_congr {s : GoString} (h : isLatin1 s = true) : toCamel U s = toCamel V s := by
  unfold toCamel
  rw [foldl_congr_mem _ (fun st ic hic => camelStep_congr U V st (isLatin1_runes h ic hic))]

theorem toPascal_congr {s : GoString} (h : isLatin1 s = true) :
    toPascal U s = toPascal V s := by
  unfold toPascal
  rw [foldl_congr_mem _ (fun st ic hic => pascalStep_congr U V st (isLatin1_runes h ic hic))]

end Tables

/-- C1: on the identifier `getUserByID123` the transforms give `get-user-by-id-123`
(kebab), `get_user_by_id_123` (snake), `GetUserByID123` (Pascal) and
`GET_USER_BY_ID_123` (enum), whatever the Unicode tables beyond Latin-1 are. -/
theorem C1_getUserByID123 (U : UnicodeTables) :
    toKebab U (str "getUserByID123") = some (str "get-user-by-id-123") ∧
    toSnake U (str "getUserByID123") = some (str "get_user_by_id_123") ∧
    toPascal U (str "getUserByID123") = str "GetUserByID123" ∧
    toEnum U (str "getUserByID123") = some (str "GET_USER_BY_ID_123") := by
  refine ⟨?_, ?_, ?_, ?_⟩
  · rw [toKebab_congr U latin1Tables (by decide) (by decide)]; decide
  · rw [toSnake_congr U latin1Tables (by decide) (by decide)]; decide
  · rw [toPascal_congr U latin1Tables (by decide)]; decide
  · rw [toEnum_congr U latin1Tables (by decide) (by decide) (by decide)]; decide

/-! ### `range`: offsets -/

theorem rangeFrom_offset_ge (s : GoString) :
    ∀ (i k : Nat) (ic : Nat × Nat), ic ∈ rangeFrom i k s → i ≤ ic.1 := by
  induction s with
  | nil => intro i k ic h; simp [rangeFrom] at h
  | cons b rest ih =>
    intro i k ic h
    cases k with
    | zero =>
      simp only [rangeFrom, List.mem_cons] at h
      rcases h with h | h
      · rw [h]
      · exact Nat.le_of_succ_le (ih _ _ _ h)
    | succ k =>
      simp only [rangeFrom] at h
      exact Nat.le_of_succ_le (ih _ _ _ h)

theorem rangeString_cons (b : Nat) (rest : GoString) :
    rangeString (b :: rest) =
      (0, (DecodeRuneInString (b :: rest)).1) ::
        rangeFrom 1 ((DecodeRuneInString (b :: rest)).2 - 1) rest := rfl

/-! ### UTF-8: decoding an encoding -/

theorem seqInfo_two {s0 : Nat} (h : 0xC2 ≤ s0 ∧ s0 ≤ 0xDF) :
    seqInfo s0 = some (2, 0x80, 0xBF) := by
  unfold seqInfo; rw [if_pos h]

theorem seqInfo_three {s0 : Nat} (h : 0xE0 ≤ s0 ∧ s0 ≤ 0xEF) :
    ∃ lo hi, seqInfo s0 = some (3, lo, hi) ∧ (lo = 0x80 ∨ (lo = 0xA0 ∧ s0 = 0xE0)) ∧
      (hi = 0xBF ∨ (hi = 0x9F ∧ s0 = 0xED)) := by
  unfold seqInfo
  split_ifs <;> first
    | omega
    | exact ⟨_, _, rfl, by omega, by omega⟩

theorem seqInfo_four {s0 : Nat} (h : 0xF0 ≤ s0 ∧ s0 ≤ 0xF4) :
    ∃ lo hi, seqInfo s0 = some (4, lo, hi) ∧ (lo = 0x80 ∨ (lo = 0x90 ∧ s0 = 0xF0)) ∧
      (hi = 0xBF ∨ (hi = 0x8F ∧ s0 = 0xF4)) := by
  unfold seqInfo
  split_ifs <;> first
    | omega
    | exact ⟨_, _, rfl, by omega, by omega⟩

theorem DecodeRuneInString_two (s0 s1 : Nat) (rest : GoString) (h0 : 0xC2 ≤ s0 ∧ s0 ≤ 0xDF)
    (h1 : 0x80 ≤ s1 ∧ s1 ≤ 0xBF) :
    DecodeRuneInString (s0 :: s1 :: rest) = ((s0 % 32) * 64 + s1 % 64, 2) := by
  have hn : ¬ s0 < 0x80 := by omega
  have hl : ¬ (rest.length + 1 + 1 < 2) := by omega
  have hs1 : ¬ (s1 < 0x80 ∨ 0xBF < s1) := by omega
  simp only [DecodeRuneInString, if_neg hn, seqInfo_two h0, List.length_cons, if_neg hl,
    List.getD_cons_zero, if_neg hs1, Nat.le_refl, if_true]

theorem DecodeRuneInString_three (s0 s1 s2 : Nat) (rest : GoString)
    (h0 : 0xE0 ≤ s0 ∧ s0 ≤ 0xEF) (h1 : 0x80 ≤ s1 ∧ s1 ≤ 0xBF)
    (hE0 : s0 = 0xE0 → 0xA0 ≤ s1) (hED : s0 = 0xED → s1 ≤ 0x9F)
    (h2 : 0x80 ≤ s2 ∧ s2 ≤ 0xBF) :
    DecodeRuneInString (s0 :: s1 :: s2 :: rest) =
      ((s0 % 16) * 4096 + (s1 % 64) * 64 + s2 % 64, 3) := by
  obtain ⟨lo, hi, hs, hlo, hhi⟩ := seqInfo_three h0
  have hn : ¬ s0 < 0x80 := by omega
  have hl : ¬ (rest.length + 1 + 1 + 1 < 3) := by omega
  have hs1 : ¬ (s1 < lo ∨ hi < s1) := by omega
  have hs2 : ¬ (s2 < 0x80 ∨ 0xBF < s2) := by omega
  have h32 : ¬ (3 ≤ 2) := by omega
  simp only [DecodeRuneInString, if_neg hn, hs, List.length_cons, if_neg hl,
    List.getD_cons_zero, List.getD_cons_succ, if_neg hs1, if_neg h32, if_neg hs2, Nat.le_refl,
    if_true]

theorem DecodeRuneInString_four (s0 s1 s2 s3 : Nat) (rest : GoString)
    (h0 : 0xF0 ≤ s0 ∧ s0 ≤ 0xF4) (h1 : 0x80 ≤ s1 ∧ s1 ≤ 0xBF)
    (hF0 : s0 = 0xF0 → 0x90 ≤ s1) (hF4 : s0 = 0xF4 → s1 ≤ 0x8F)
    (h2 : 0x80 ≤ s2 ∧ s2 ≤ 0xBF) (h3 : 0x80 ≤ s3 ∧ s3 ≤ 0xBF) :
    DecodeRuneInString (s0 :: s1 :: s2 :: s3 :: rest) =
      ((s0 % 8) * 262144 + (s1 % 64) * 4096 + (s2 % 64) * 64 + s3 % 64, 4) := by
  obtain ⟨lo, hi, hs, hlo, hhi⟩ := seqInfo_four h0
  have hn : ¬ s0 < 0x80 := by omega
  have hl : ¬ (rest.length + 1 + 1 + 1 + 1 < 4) := by omega
  have hs1 : ¬ (s1 < lo ∨ hi < s1) := by omega
  have hs2 : ¬ (s2 < 0x80 ∨ 0xBF < s2) := by omega
  have hs3 : ¬ (s3 < 0x80 ∨ 0xBF < s3) := by omega
  have h42 : ¬ (4 ≤ 2) := by omega
  have h43 : ¬ (4 ≤ 3) := by omega
  simp only [DecodeRuneInString, if_neg hn, hs, List.length_cons, if_neg hl,
    List.getD_cons_zero, List.getD_cons_succ, if_neg hs1, if_neg h42, if_neg hs2, if_neg h43,
    if_neg hs3]

/-- Decoding the encoding of a Unicode scalar value gives the value back, with the
length of the encoding as width. -/
theorem DecodeRuneInString_EncodeRune (r : Nat) (hr : validRune r) (rest : GoString) :
    DecodeRuneInString (EncodeRune r ++ rest) = (r, (EncodeRune r).length) := by
  unfold validRune at hr
  unfold EncodeRune
  split_ifs with h1 h2 h3 h4
  · simp [DecodeRuneInString, h1]
  · rw [List.cons_append, List.cons_append, List.nil_append,
      DecodeRuneInString_two _ _ _ (by omega) (by omega)]
    refine Prod.ext ?_ rfl
    show _ = r
    omega
  · omega
  · rw [List.cons_append, List.cons_append, List.cons_append, List.nil_append,
      DecodeRuneInString_three _ _ _ _ (by omega) (by omega) (by omega) (by omega) (by omega)]
    refine Prod.ext ?_ rfl
    show _ = r
    omega
  · rw [List.cons_append, List.cons_append, List.cons_append, List.cons_append,
      List.nil_append,
      DecodeRuneInString_four _ _ _ _ _ (by omega) (by omega) (by omega) (by omega) (by omega)
        (by omega)]
    refine Prod.ext ?_ rfl
    show _ = r
    omega

theorem seqInfo_some {s0 sz lo hi : Nat} (h : seqInfo s0 = some (sz, lo, hi)) :
    (sz = 2 ∧ lo = 0x80 ∧ hi = 0xBF) ∨
    (sz = 3 ∧ 0xE0 ≤ s0 ∧ s0 ≤ 0xEF ∧ 0x80 ≤ lo ∧ hi ≤ 0xBF ∧ (s0 = 0xED → hi = 0x9F)) ∨
    (sz = 4 ∧ 0xF0 ≤ s0 ∧ s0 ≤ 0xF4 ∧ 0x80 ≤ lo ∧ hi ≤ 0xBF ∧ (s0 = 0xF0 → lo = 0x90) ∧
      (s0 = 0xF4 → hi = 0x8F)) := by
  unfold seqInfo at h
  split_ifs at h <;> simp only [Option.some.injEq, Prod.mk.injEq] at h <;>
    (obtain ⟨rfl, rfl, rfl⟩ := h; omega)

/-- Every rune that `range` yields is a Unicode scalar value. -/
theorem DecodeRuneInString_valid (s : GoString) : validRune (DecodeRuneInString s).1 := by
  have herr : validRune RuneError := by unfold validRune RuneError; omega
  cases s with
  | nil => exact herr
  | cons s0 rest =>
    simp only [DecodeRuneInString]
    split
    · unfold validRune; simp only; omega
    · cases hs : seqInfo s0 with
      | none => exact herr
      | some t =>
        obtain ⟨sz, lo, hi⟩ := t
        have hc := seqInfo_some hs
        simp only
        split_ifs <;> first
          | exact herr
          | (unfold validRune; simp only; omega)

/-! ### `toCamel` and `toPascal` -/

theorem pascalStep_eq_camelStep (U : UnicodeTables) (st : GoString × Bool) (ic : Nat × Nat)
    (h : ic.1 ≠ 0) : pascalStep U st ic = camelStep U st ic := by
  simp [pascalStep, camelStep, h]

theorem camelStep_append (U : UnicodeTables) (a x : GoString) (f : Bool) (ic : Nat × Nat)
    (h : ic.1 ≠ 0) :
    camelStep U (a ++ x, f) ic = (a ++ (camelStep U (x, f) ic).1, (camelStep U (x, f) ic).2) := by
  simp only [camelStep, h, if_false, WriteRune]
  split
  · rfl
  · split <;> simp [List.append_assoc]

theorem camelFold_append (U : UnicodeTables) (a : GoString) (l : List (Nat × Nat))
    (hl : ∀ ic ∈ l, ic.1 ≠ 0) (x : GoString) (f : Bool) :
    l.foldl (camelStep U) (a ++ x, f) =
      (a ++ (l.foldl (camelStep U) (x, f)).1, (l.foldl (camelStep U) (x, f)).2) := by
  induction l generalizing x f with
  | nil => rfl
  | cons ic l ih =>
    simp only [List.foldl_cons]
    rw [camelStep_append U a x f ic (hl ic (List.mem_cons_self _ _))]
    exact ih (fun y hy => hl y (List.mem_cons_of_mem _ hy)) _ _

theorem pascalFold_eq_camelFold (U : UnicodeTables) (l : List (Nat × Nat))
    (hl : ∀ ic ∈ l, ic.1 ≠ 0) (st : GoString × Bool) :
    l.foldl (pascalStep U) st = l.foldl (camelStep U) st :=
  foldl_congr_mem l (fun b ic hic => pascalStep_eq_camelStep U b ic (hl ic hic)) st

/-- C2: `toPascal s` is `toCamel s` with only its first character replaced by that
character's uppercase form. Both are empty for the empty string; otherwise
`toCamel s` is the encoding of its first character `c` (which is the first rune of
`s`) followed by some bytes `rest`, and `toPascal s` is the encoding of `ToUpper c`
followed by the same `rest`. -/
theorem C2_toPascal_eq_toCamel_upper_first (U : UnicodeTables) (s : GoString) :
    (s = [] ∧ toCamel U s = [] ∧ toPascal U s = []) ∨
    ∃ (c : Nat) (tl : List (Nat × Nat)) (rest : GoString),
      rangeString s = (0, c) :: tl ∧
      DecodeRuneInString (toCamel U s) = (c, (EncodeRune c).length) ∧
      toCamel U s = EncodeRune c ++ rest ∧
      toPascal U s = EncodeRune (ToUpper U c) ++ rest := by
  cases s with
  | nil => exact Or.inl ⟨rfl, rfl, rfl⟩
  | cons b bs =>
    have hl : ∀ ic ∈ rangeFrom 1 ((DecodeRuneInString (b :: bs)).2 - 1) bs, ic.1 ≠ 0 :=
      fun ic hic => Nat.pos_iff_ne_zero.mp (rangeFrom_offset_ge bs _ _ ic hic)
    have hcamel : toCamel U (b :: bs) = EncodeRune (DecodeRuneInString (b :: bs)).1 ++
        ((rangeFrom 1 ((DecodeRuneInString (b :: bs)).2 - 1) bs).foldl
          (camelStep U) ([], false)).1 := by
      have := camelFold_append U (EncodeRune (DecodeRuneInString (b :: bs)).1) _ hl [] false
      simp only [List.append_nil] at this
      simp only [toCamel, rangeString_cons, List.foldl_cons]
      simp only [camelStep, if_true, WriteRune, List.nil_append]
      rw [this]
    refine Or.inr ⟨(DecodeRuneInString (b :: bs)).1,
      rangeFrom 1 ((DecodeRuneInString (b :: bs)).2 - 1) bs,
      ((rangeFrom 1 ((DecodeRuneInString (b :: bs)).2 - 1) bs).foldl
        (camelStep U) ([], false)).1, rfl, ?_, hcamel, ?_⟩
    · rw [hcamel]
      exact DecodeRuneInString_EncodeRune _ (DecodeRuneInString_valid _) _
    · have := camelFold_append U
        (EncodeRune (ToUpper U (DecodeRuneInString (b :: bs)).1)) _ hl [] false
      simp only [List.append_nil] at this
      simp only [toPascal, rangeString_cons, List.foldl_cons]
      simp only [pascalStep, if_true, WriteRune, List.nil_append]
      rw [pascalFold_eq_camelFold U _ hl, this]

/-- C3 (as stated, refuted): `toFlag` does not return the empty string on the empty
string, whatever the tables are. -/
theorem C3_toFlag_empty_not_empty :
    ¬ ∃ U : UnicodeTables, toFlag U (str "") = some (str "") := by
  rintro ⟨U, h⟩
  rw [show toFlag U (str "") = some (str "--") from rfl] at h
  exact absurd h (by decide)

/-- C3 (amended): on the empty string `toKebab`, `toSnake`, `toCamel`, `toPascal`
and `toEnum` return the empty string, and `toFlag` returns `--`. -/
theorem C3_empty_input (U : UnicodeTables) :
    toKebab U (str "") = some (str "") ∧ toSnake U (str "") = some (str "") ∧
    toCamel U (str "") = str "" ∧ toPascal U (str "") = str "" ∧
    toEnum U (str "") = some (str "") ∧ toFlag U (str "") = some (str "--") :=
  ⟨rfl, rfl, rfl, rfl, rfl, rfl⟩

/-- C4 (failing input): on `1.a` the character `.` follows a digit, so the third
condition of the loop fires before the fourth and `.` is written, not dropped:
`toKebab` returns `1-.a`. -/
theorem C4_toKebab_keeps_dot_after_digit (U : UnicodeTables) :
    toKebab U (str "1.a") = some (str "1-.a") := by
  rw [toKebab_congr U latin1Tables (by decide) (by decide)]; decide

/-! ### ASCII inputs: the loops of `toKebab` and `toSnake` in closed form -/

theorem EncodeRune_ascii {b : Nat} (h : b < 0x80) : EncodeRune b = [b] := by
  simp [EncodeRune, h]

theorem DecodeRuneInString_ascii {b : Nat} (h : b < 0x80) (rest : GoString) :
    DecodeRuneInString (b :: rest) = (b, 1) := by
  simp [DecodeRuneInString, h]

theorem rangeFrom_ascii (s : GoString) (hs : ∀ b ∈ s, b < 0x80) (i : Nat) :
    rangeFrom i 0 s = s.enumFrom i := by
  induction s generalizing i with
  | nil => rfl
  | cons b rest ih =>
    have hb : b < 0x80 := hs b (List.mem_cons_self _ _)
    simp only [rangeFrom, DecodeRuneInString_ascii hb, List.enumFrom_cons]
    rw [ih (fun x hx => hs x (List.mem_cons_of_mem _ hx))]

theorem rangeString_ascii (s : GoString) (hs : ∀ b ∈ s, b < 0x80) :
    rangeString s = s.enumFrom 0 := rangeFrom_ascii s hs 0

theorem ToLower_ascii (U : UnicodeTables) {b : Nat} (h : b < 0x80) :
    ToLower U b = if 0x41 ≤ b ∧ b ≤ 0x5A then b + 32 else b := by
  have : b ≤ 0x7F := by omega
  simp [ToLower, this]

theorem ToLower_ascii_lt (U : UnicodeTables) {b : Nat} (h : b < 0x80) : ToLower U b < 0x80 := by
  rw [ToLower_ascii U h]; split <;> omega

theorem ToUpper_ascii (U : UnicodeTables) {b : Nat} (h : b < 0x80) :
    ToUpper U b = if 0x61 ≤ b ∧ b ≤ 0x7A then b - 32 else b := by
  have : b ≤ 0x7F := by omega
  simp [ToUpper, this]

theorem stringsMap_ascii (f : Nat → Nat) (t : GoString) (ht : ∀ b ∈ t, b < 0x80)
    (hf : ∀ b ∈ t, f b < 0x80) : stringsMap f t = t.map f := by
  unfold stringsMap
  rw [rangeString_ascii t ht]
  generalize 0 = i
  induction t generalizing i with
  | nil => rfl
  | cons b rest ih =>
    simp only [List.enumFrom_cons, List.flatMap_cons, List.map_cons]
    rw [EncodeRune_ascii (hf b (List.mem_cons_self _ _)),
      ih (fun x hx => ht x (List.mem_cons_of_mem _ hx))
        (fun x hx => hf x (List.mem_cons_of_mem _ hx))]
    rfl

theorem stringsToLower_ascii (U : UnicodeTables) (t : GoString) (ht : ∀ b ∈ t, b < 0x80) :
    stringsToLower U t = t.map (ToLower U) :=
  stringsMap_ascii _ t ht (fun b hb => ToLower_ascii_lt U (ht b hb))

theorem kebabStep_eq (U : UnicodeTables) (s buf : GoString) (i p : Nat) (c : Nat)
    (hi : i ≠ 0) (hp : s[i - 1]? = some p) :
    kebabStep U s buf (i, c) = some (buf ++ sepPiece U 0x2D p c) := by
  simp only [kebabStep, hi, if_false, hp, sepPiece, WriteRune]
  split_ifs <;> simp [List.append_assoc]

theorem snakeStep_eq (U : UnicodeTables) (s buf : GoString) (i p : Nat) (c : Nat)
    (hi : i ≠ 0) (hp : s[i - 1]? = some p) :
    snakeStep U s buf (i, c) = some (buf ++ sepPiece U 0x5F p c) := by
  simp only [snakeStep, hi, if_false, hp, sepPiece, WriteRune]
  split_ifs <;> simp [List.append_assoc]

theorem kebabLoop_enum (U : UnicodeTables) (rest : GoString) :
    ∀ (pre : GoString) (p : Nat) (buf : GoString),
      kebabLoop U (pre ++ p :: rest) (rest.enumFrom (pre.length + 1)) buf =
        some (buf ++ sepOut U 0x2D p rest) := by
  induction rest with
  | nil => intro pre p buf; simp [kebabLoop, sepOut]
  | cons c rest ih =>
    intro pre p buf
    have hp : (pre ++ p :: c :: rest)[pre.length + 1 - 1]? = some p := by
      rw [Nat.add_sub_cancel, List.getElem?_append_right (Nat.le_refl _)]; simp
    simp only [List.enumFrom_cons, kebabLoop]
    rw [kebabStep_eq U _ buf _ p c (Nat.succ_ne_zero _) hp]
    have := ih (pre ++ [p]) c (buf ++ sepPiece U 0x2D p c)
    simp only [List.append_assoc, List.singleton_append, List.length_append,
      List.length_singleton] at this
    simp only [this, sepOut]

theorem snakeLoop_enum (U : UnicodeTables) (rest : GoString) :
    ∀ (pre : GoString) (p : Nat) (buf : GoString),
      snakeLoop U (pre ++ p :: rest) (rest.enumFrom (pre.length + 1)) buf =
        some (buf ++ sepOut U 0x5F p rest) := by
  induction rest with
  | nil => intro pre p buf; simp [snakeLoop, sepOut]
  | cons c rest ih =>
    intro pre p buf
    have hp : (pre ++ p :: c :: rest)[pre.length + 1 - 1]? = some p := by
      rw [Nat.add_sub_cancel, List.getElem?_append_right (Nat.le_refl _)]; simp
    simp only [List.enumFrom_cons, snakeLoop]
    rw [snakeStep_eq U _ buf _ p c (Nat.succ_ne_zero _) hp]
    have := ih (pre ++ [p]) c (buf ++ sepPiece U 0x5F p c)
    simp only [List.append_assoc, List.singleton_append, List.length_append,
      List.length_singleton] at this
    simp only [this, sepOut]

theorem sepPiece_ascii_mem (U : UnicodeTables) {sep p c : Nat} (hsep : sep < 0x80)
    (hc : c < 0x80) : ∀ x ∈ sepPiece U sep p c, x = sep ∨ x = c := by
  intro x hx
  simp only [sepPiece, EncodeRune_ascii hsep, EncodeRune_ascii hc] at hx
  split_ifs at hx <;> simp at hx <;> tauto

theorem sepOut_ascii (U : UnicodeTables) {sep : Nat} (hsep : sep < 0x80) (rest : GoString)
    (hr : ∀ b ∈ rest, b < 0x80) (p : Nat) : ∀ x ∈ sepOut U sep p rest, x < 0x80 := by
  induction rest generalizing p with
  | nil => intro x hx; simp [sepOut] at hx
  | cons c rest ih =>
    intro x hx
    simp only [sepOut, List.mem_append] at hx
    rcases hx with hx | hx
    · rcases sepPiece_ascii_mem U hsep (hr c (List.mem_cons_self _ _)) x hx with h | h
      · omega
      · rw [h]; exact hr c (List.mem_cons_self _ _)
    · exact ih (fun b hb => hr b (List.mem_cons_of_mem _ hb)) c x hx

/-- On an ASCII input `toKebab` returns the first byte followed by what the
iterations append, all mapped through `ToLower`. -/
theorem toKebab_ascii (U : UnicodeTables) (b : Nat) (rest : GoString)
    (hs : ∀ x ∈ b :: rest, x < 0x80) :
    toKebab U (b :: rest) = some ((b :: sepOut U 0x2D b rest).map (ToLower U)) := by
  have hb : b < 0x80 := hs b (List.mem_cons_self _ _)
  have hr : ∀ x ∈ rest, x < 0x80 := fun x hx => hs x (List.mem_cons_of_mem _ hx)
  have hloop := kebabLoop_enum U rest [] b [b]
  simp only [List.nil_append, List.length_nil, Nat.zero_add, List.singleton_append] at hloop
  unfold toKebab
  rw [rangeString_ascii _ hs]
  simp only [List.enumFrom_cons, kebabLoop, kebabStep, if_true, WriteRune, List.nil_append,
    EncodeRune_ascii hb, Nat.zero_add]
  rw [hloop]
  simp only [Option.map_some']
  rw [stringsToLower_ascii U]
  intro x hx
  rcases List.mem_cons.mp hx with h | h
  · omega
  · exact sepOut_ascii U (by norm_num) rest hr b x h

/-- On an ASCII input `toSnake` returns the lowered first byte followed by what the
iterations append, all mapped through `ToLower`. -/
theorem toSnake_ascii (U : UnicodeTables) (b : Nat) (rest : GoString)
    (hs : ∀ x ∈ b :: rest, x < 0x80) :
    toSnake U (b :: rest) =
      some ((ToLower U b :: sepOut U 0x5F b rest).map (ToLower U)) := by
  have hb : b < 0x80 := hs b (List.mem_cons_self _ _)
  have hr : ∀ x ∈ rest, x < 0x80 := fun x hx => hs x (List.mem_cons_of_mem _ hx)
  have hloop := snakeLoop_enum U rest [] b [ToLower U b]
  simp only [List.nil_append, List.length_nil, Nat.zero_add, List.singleton_append] at hloop
  unfold toSnake
  rw [rangeString_ascii _ hs]
  simp only [List.enumFrom_cons, snakeLoop, snakeStep, if_true, WriteRune, List.nil_append,
    EncodeRune_ascii (ToLower_ascii_lt U hb), Nat.zero_add]
  rw [hloop]
  simp only [Option.map_some']
  rw [stringsToLower_ascii U]
  intro x hx
  rcases List.mem_cons.mp hx with h | h
  · rw [h]; exact ToLower_ascii_lt U hb
  · exact sepOut_ascii U (by norm_num) rest hr b x h

/-! ### Doubled separators -/

theorem hasDouble_cons_ne {sep a : Nat} (h : a ≠ sep) (t : GoString) :
    hasDouble sep (a :: t) = hasDouble sep t := by
  cases t with
  | nil => rfl
  | cons b t => simp [hasDouble, h]

theorem hasDouble_map (sep : Nat) (f : Nat → Nat) (t : GoString)
    (hf : ∀ x ∈ t, (f x = sep ↔ x = sep)) :
    hasDouble sep (t.map f) = hasDouble sep t := by
  induction t with
  | nil => rfl
  | cons a t ih =>
    cases t with
    | nil => rfl
    | cons b t =>
      have ha : (f a == sep) = (a == sep) := by
        rw [Bool.eq_iff_iff]; simpa using hf a (List.mem_cons_self _ _)
      have hb : (f b == sep) = (b == sep) := by
        rw [Bool.eq_iff_iff]
        simpa using hf b (List.mem_cons_of_mem _ (List.mem_cons_self _ _))
      have ih1 := ih (fun x hx => hf x (List.mem_cons_of_mem _ hx))
      simp only [List.map_cons] at ih1
      simp only [List.map_cons, hasDouble, ih1, ha, hb]

theorem hasDouble_cons_cons_ne {sep b : Nat} (h : b ≠ sep) (a : Nat) (t : GoString) :
    hasDouble sep (a :: b :: t) = hasDouble sep t := by
  have hb : (b == sep) = false := by simp [h]
  simp only [hasDouble, hb, Bool.and_false, Bool.false_or]
  exact hasDouble_cons_ne h t

theorem ToLower_ascii_eq_sep (U : UnicodeTables) {x sep : Nat} (hx : x < 0x80)
    (hsep : sep = 0x2D ∨ sep = 0x5F) : ToLower U x = sep ↔ x = sep := by
  rw [ToLower_ascii U hx]
  split <;> omega

theorem IsLetter_ascii (U : UnicodeTables) {c : Nat} (hc : c < 0x80) :
    IsLetter U c = true ↔ (0x41 ≤ c ∧ c ≤ 0x5A) ∨ (0x61 ≤ c ∧ c ≤ 0x7A) := by
  have h1 : c ≤ 0xFF := by omega
  simp only [IsLetter, h1, if_true, latin1Letter, latin1Upper, latin1Lower, Bool.or_eq_true,
    Bool.and_eq_true, decide_eq_true_eq, beq_iff_eq]
  omega

theorem IsDigit_ascii (U : UnicodeTables) {c : Nat} (hc : c < 0x80) :
    IsDigit U c = true ↔ (0x30 ≤ c ∧ c ≤ 0x39) := by
  have h1 : c ≤ 0xFF := by omega
  simp only [IsDigit, h1, if_true, Bool.and_eq_true, decide_eq_true_eq]

theorem IsUpper_ascii (U : UnicodeTables) {c : Nat} (hc : c < 0x80) :
    IsUpper U c = true ↔ (0x41 ≤ c ∧ c ≤ 0x5A) := by
  have h1 : c ≤ 0xFF := by omega
  simp only [IsUpper, h1, if_true, latin1Upper, Bool.or_eq_true,
    Bool.and_eq_true, decide_eq_true_eq]
  omega

theorem IsLower_ascii (U : UnicodeTables) {c : Nat} (hc : c < 0x80) :
    IsLower U c = true ↔ (0x61 ≤ c ∧ c ≤ 0x7A) := by
  have h1 : c ≤ 0xFF := by omega
  simp only [IsLower, h1, if_true, latin1Lower, Bool.or_eq_true,
    Bool.and_eq_true, decide_eq_true_eq, beq_iff_eq]
  omega

/-- The three shapes of what an iteration appends for an ASCII `c`. -/
theorem sepPiece_cases (U : UnicodeTables) (p : Nat) {sep c : Nat} (hsep : sep < 0x80)
    (hc : c < 0x80) :
    sepPiece U sep p c = [sep, c] ∨ sepPiece U sep p c = [c] ∨
      (sepPiece U sep p c = [sep] ∧ IsDigit U c = false ∧ IsLetter U c = false) := by
  simp only [sepPiece, EncodeRune_ascii hsep, EncodeRune_ascii hc]
  split_ifs with h1 h2 h3 h4
  · exact Or.inl rfl
  · exact Or.inl rfl
  · exact Or.inl rfl
  · simp only [Bool.and_eq_true, Bool.not_eq_true', bne_iff_ne] at h4
    exact Or.inr (Or.inr ⟨rfl, h4.1.1, h4.1.2⟩)
  · exact Or.inr (Or.inl rfl)

/-- A letter after an ASCII byte that is neither letter nor digit is appended alone. -/
theorem sepPiece_letter_after_sep (U : UnicodeTables) (sep : Nat) {p c : Nat} (hp : p < 0x80)
    (hc : c < 0x80) (hpd : IsDigit U p = false) (hpl : IsLetter U p = false)
    (hcl : IsLetter U c = true) : sepPiece U sep p c = [c] := by
  have hcd : IsDigit U c = false := by
    rw [Bool.eq_false_iff]; intro h
    rw [IsDigit_ascii U hc] at h; rw [IsLetter_ascii U hc] at hcl; omega
  have hlow : IsLower U p = false := by
    rw [Bool.eq_false_iff]; intro h
    have : IsLetter U p = true := by
      rw [IsLetter_ascii U hp]; rw [IsLower_ascii U hp] at h; omega
    rw [hpl] at this; exact Bool.noConfusion this
  simp [sepPiece, hcd, hpd, hcl, hlow, EncodeRune_ascii hc]

theorem sepOut_noDouble (U : UnicodeTables) {sep : Nat} (hsep : sep < 0x80) (rest : GoString) :
    ∀ (p : Nat), (∀ b ∈ rest, b < 0x80) → sep ∉ rest → sepBeforeLetter U rest = true →
      hasDouble sep (sepOut U sep p rest) = false := by
  induction rest with
  | nil => intro p _ _ _; rfl
  | cons c rest ih =>
    intro p hr hn hbl
    have hc : c < 0x80 := hr c (List.mem_cons_self _ _)
    have hcs : c ≠ sep := fun h => hn (h ▸ List.mem_cons_self _ _)
    have hr1 : ∀ b ∈ rest, b < 0x80 := fun b hb => hr b (List.mem_cons_of_mem _ hb)
    have hn1 : sep ∉ rest := fun h => hn (List.mem_cons_of_mem _ h)
    have hbl1 : sepBeforeLetter U rest = true := by
      cases rest with
      | nil => rfl
      | cons d rest =>
        simp only [sepBeforeLetter, Bool.and_eq_true] at hbl
        exact hbl.2
    have hih := ih c hr1 hn1 hbl1
    simp only [sepOut]
    rcases sepPiece_cases U p hsep hc with h | h | ⟨h, hd, hl⟩
    · rw [h]
      show hasDouble sep (sep :: c :: sepOut U sep c rest) = false
      rw [hasDouble_cons_cons_ne hcs]; exact hih
    · rw [h]
      show hasDouble sep (c :: sepOut U sep c rest) = false
      rw [hasDouble_cons_ne hcs]; exact hih
    · rw [h]
      cases rest with
      | nil => rfl
      | cons d rest =>
        have hdlt : d < 0x80 := hr1 d (List.mem_cons_self _ _)
        have hds : d ≠ sep := fun h => hn1 (h ▸ List.mem_cons_self _ _)
        have hdl : IsLetter U d = true := by
          simp only [sepBeforeLetter, Bool.and_eq_true, Bool.or_eq_true, hd, hl] at hbl
          simpa using hbl.1
        have hpiece := sepPiece_letter_after_sep U sep hc hdlt hd hl hdl
        simp only [sepOut, hpiece, List.singleton_append] at hih ⊢
        rw [hasDouble_cons_ne hds] at hih
        show hasDouble sep (sep :: d :: sepOut U sep d rest) = false
        rw [hasDouble_cons_cons_ne hds]; exact hih

/-- C5 (as stated, refuted): `a..b` contains neither `-` nor `_`, yet `toKebab`
returns `a--b`, with two adjacent `-`. -/
theorem C5_doubled_separator_counterexample :
    ¬ ∀ (U : UnicodeTables) (s : GoString), 0x2D ∉ s → 0x5F ∉ s →
      (∀ k, toKebab U s = some k → hasDouble 0x2D k = false) ∧
      (∀ k, toSnake U s = some k → hasDouble 0x5F k = false) := by
  intro h
  have h1 := (h latin1Tables (str "a..b") (by decide) (by decide)).1 (str "a--b") (by decide)
  exact absurd h1 (by decide)

/-- C5 (amended): for an ASCII string that contains neither `-` nor `_` and in
which every character that is neither a letter nor a digit is directly followed
by a letter (or ends the string), `toKebab` returns a string without two adjacent
`-` and `toSnake` one without two adjacent `_`. -/
theorem C5_no_doubled_separator (U : UnicodeTables) (s : GoString)
    (hascii : ∀ b ∈ s, b < 0x80) (hk : 0x2D ∉ s) (hsn : 0x5F ∉ s)
    (hbl : sepBeforeLetter U s = true) :
    (∃ k, toKebab U s = some k ∧ hasDouble 0x2D k = false) ∧
    (∃ k, toSnake U s = some k ∧ hasDouble 0x5F k = false) := by
  cases s with
  | nil => exact ⟨⟨[], rfl, rfl⟩, ⟨[], rfl, rfl⟩⟩
  | cons b rest =>
    have hb : b < 0x80 := hascii b (List.mem_cons_self _ _)
    have hr : ∀ x ∈ rest, x < 0x80 := fun x hx => hascii x (List.mem_cons_of_mem _ hx)
    have hbl1 : sepBeforeLetter U rest = true := by
      cases rest with
      | nil => rfl
      | cons d rest =>
        simp only [sepBeforeLetter, Bool.and_eq_true] at hbl
        exact hbl.2
    constructor
    · refine ⟨_, toKebab_ascii U b rest hascii, ?_⟩
      rw [hasDouble_map 0x2D (ToLower U)]
      · have hbk : b ≠ 0x2D := fun h => hk (by rw [← h]; exact List.mem_cons_self _ _)
        rw [hasDouble_cons_ne hbk]
        exact sepOut_noDouble U (by norm_num) rest b hr
          (fun h => hk (List.mem_cons_of_mem _ h)) hbl1
      · intro x hx
        refine ToLower_ascii_eq_sep U ?_ (Or.inl rfl)
        rcases List.mem_cons.mp hx with h | h
        · rw [h]; exact hb
        · exact sepOut_ascii U (by norm_num) rest hr b x h
    · refine ⟨_, toSnake_ascii U b rest hascii, ?_⟩
      have hlb : ToLower U b ≠ 0x5F := fun h => hsn (by
        rw [← (ToLower_ascii_eq_sep U hb (Or.inr rfl)).mp h]; exact List.mem_cons_self _ _)
      rw [hasDouble_map 0x5F (ToLower U)]
      · rw [hasDouble_cons_ne hlb]
        exact sepOut_noDouble U (by norm_num) rest b hr
          (fun h => hsn (List.mem_cons_of_mem _ h)) hbl1
      · intro x hx
        refine ToLower_ascii_eq_sep U ?_ (Or.inr rfl)
        rcases List.mem_cons.mp hx with h | h
        · rw [h]; exact ToLower_ascii_lt U hb
        · exact sepOut_ascii U (by norm_num) rest hr b x h

/-- C5 (amended), at `get.userID/v2x`: the hypotheses hold and the results have no
doubled separator. -/
theorem C5_no_doubled_separator_witness :
    (∃ k, toKebab latin1Tables (str "get.userID/v2x") = some k ∧ hasDouble 0x2D k = false) ∧
    (∃ k, toSnake latin1Tables (str "get.userID/v2x") = some k ∧ hasDouble 0x5F k = false) :=
  C5_no_doubled_separator latin1Tables (str "get.userID/v2x")
    (by decide) (by decide) (by decide) (by decide)

/-! ### Re-applying `toKebab` -/

theorem sepPiece_nodigit_mem (U : UnicodeTables) {p c : Nat} (hc : c < 0x80)
    (hcd : IsDigit U c = false) (hpd : IsDigit U p = false) :
    ∀ x ∈ sepPiece U 0x2D p c, x = 0x2D ∨ (x = c ∧ IsLetter U c = true) := by
  intro x hx
  have h2d : EncodeRune 0x2D = [0x2D] := rfl
  simp only [sepPiece, EncodeRune_ascii hc, h2d, hcd, hpd] at hx
  split_ifs at hx with h1 h2 h3 h4
  · simp only [Bool.and_eq_true] at h1
    have hl : IsLetter U c = true := by
      rw [IsLetter_ascii U hc]; have := (IsUpper_ascii U hc).mp h1.1; omega
    simp at hx; rcases hx with h | h
    · exact Or.inl h
    · exact Or.inr ⟨h, hl⟩
  · simp at h2
  · simp at h3
  · simp at hx; exact Or.inl hx
  · simp only [Bool.not_false, Bool.true_and, Bool.and_eq_true, Bool.not_eq_true',
      bne_iff_ne, not_and, Bool.not_eq_false, ne_eq, not_not] at h4
    simp at hx
    by_cases hl : IsLetter U c = true
    · exact Or.inr ⟨hx, hl⟩
    · rw [Bool.not_eq_true] at hl
      exact Or.inl (hx.trans (h4 hl))

theorem sepOut_nodigit_mem (U : UnicodeTables) (rest : GoString) :
    ∀ (p : Nat), (∀ b ∈ rest, b < 0x80) → (∀ b ∈ rest, IsDigit U b = false) →
      IsDigit U p = false →
      ∀ x ∈ sepOut U 0x2D p rest, x = 0x2D ∨ (x < 0x80 ∧ IsLetter U x = true) := by
  induction rest with
  | nil => intro p _ _ _ x hx; simp [sepOut] at hx
  | cons c rest ih =>
    intro p hr hnd hpd x hx
    have hc : c < 0x80 := hr c (List.mem_cons_self _ _)
    have hcd : IsDigit U c = false := hnd c (List.mem_cons_self _ _)
    simp only [sepOut, List.mem_append] at hx
    rcases hx with hx | hx
    · rcases sepPiece_nodigit_mem U hc hcd hpd x hx with h | ⟨h, hl⟩
      · exact Or.inl h
      · exact Or.inr ⟨h ▸ hc, h ▸ hl⟩
    · exact ih c (fun b hb => hr b (List.mem_cons_of_mem _ hb))
        (fun b hb => hnd b (List.mem_cons_of_mem _ hb)) hcd x hx

theorem kebabByte_lt {x : Nat} (h : kebabByte x) : x < 0x80 := by
  unfold kebabByte at h; omega

theorem kebabByte_not_digit (U : UnicodeTables) {x : Nat} (h : kebabByte x) :
    IsDigit U x = false := by
  rw [Bool.eq_false_iff]; intro hd
  rw [IsDigit_ascii U (kebabByte_lt h)] at hd
  unfold kebabByte at h; omega

theorem kebabByte_ToLower (U : UnicodeTables) {x : Nat} (h : kebabByte x) : ToLower U x = x := by
  rw [ToLower_ascii U (kebabByte_lt h)]
  unfold kebabByte at h
  split <;> omega

theorem sepPiece_kebabByte (U : UnicodeTables) {p x : Nat} (hx : kebabByte x)
    (hpd : IsDigit U p = false) : sepPiece U 0x2D p x = [x] := by
  have hlt := kebabByte_lt hx
  have hxd := kebabByte_not_digit U hx
  have hup : IsUpper U x = false := by
    rw [Bool.eq_false_iff]; intro h
    rw [IsUpper_ascii U hlt] at h; unfold kebabByte at hx; omega
  have hor : IsLetter U x = true ∨ x = 0x2D := by
    unfold kebabByte at hx
    rcases hx with h | h
    · exact Or.inr h
    · exact Or.inl ((IsLetter_ascii U hlt).mpr (Or.inr h))
  simp only [sepPiece, EncodeRune_ascii hlt, hxd, hpd, hup]
  rcases hor with h | h
  · simp [h]
  · simp [h]

theorem sepOut_kebabByte (U : UnicodeTables) (t : GoString) :
    ∀ (p : Nat), (∀ x ∈ t, kebabByte x) → IsDigit U p = false → sepOut U 0x2D p t = t := by
  induction t with
  | nil => intro p _ _; rfl
  | cons x t ih =>
    intro p ht hpd
    have hx := ht x (List.mem_cons_self _ _)
    simp only [sepOut, sepPiece_kebabByte U hx hpd, List.singleton_append]
    rw [ih x (fun y hy => ht y (List.mem_cons_of_mem _ hy)) (kebabByte_not_digit U hx)]

theorem map_ToLower_kebabByte (U : UnicodeTables) (t : GoString)
    (ht : ∀ x ∈ t, kebabByte x) : t.map (ToLower U) = t := by
  induction t with
  | nil => rfl
  | cons x t ih =>
    simp only [List.map_cons, kebabByte_ToLower U (ht x (List.mem_cons_self _ _))]
    rw [ih (fun y hy => ht y (List.mem_cons_of_mem _ hy))]

theorem ToLower_ToLower_ascii (U : UnicodeTables) {b : Nat} (hb : b < 0x80) :
    ToLower U (ToLower U b) = ToLower U b := by
  rw [ToLower_ascii U (ToLower_ascii_lt U hb), ToLower_ascii U hb]
  split_ifs <;> omega

/-- On an ASCII string without digits, applying `toKebab` to its own result
returns that result. -/
theorem toKebab_idem_of_ascii_nodigit (U : UnicodeTables) (s : GoString)
    (hascii : ∀ b ∈ s, b < 0x80) (hnd : ∀ b ∈ s, ¬ (0x30 ≤ b ∧ b ≤ 0x39)) :
    ∃ k, toKebab U s = some k ∧ toKebab U k = some k := by
  cases s with
  | nil => exact ⟨[], rfl, rfl⟩
  | cons b rest =>
    have hb : b < 0x80 := hascii b (List.mem_cons_self _ _)
    have hr : ∀ x ∈ rest, x < 0x80 := fun x hx => hascii x (List.mem_cons_of_mem _ hx)
    have hdig : ∀ x ∈ b :: rest, IsDigit U x = false := fun x hx => by
      rw [Bool.eq_false_iff]; intro h
      exact hnd x hx ((IsDigit_ascii U (hascii x hx)).mp h)
    have hbd : IsDigit U b = false := hdig b (List.mem_cons_self _ _)
    have hrd : ∀ x ∈ rest, IsDigit U x = false := fun x hx =>
      hdig x (List.mem_cons_of_mem _ hx)
    have hlb : ToLower U b < 0x80 := ToLower_ascii_lt U hb
    have hlbd : IsDigit U (ToLower U b) = false := by
      rw [Bool.eq_false_iff]; intro h
      rw [IsDigit_ascii U hlb, ToLower_ascii U hb] at h
      have := hnd b (List.mem_cons_self _ _)
      split_ifs at h <;> omega
    have hkb : ∀ y ∈ (sepOut U 0x2D b rest).map (ToLower U), kebabByte y := by
      intro y hy
      obtain ⟨x, hx, rfl⟩ := List.mem_map.mp hy
      rcases sepOut_nodigit_mem U rest b hr hrd hbd x hx with h | ⟨hlt, hl⟩
      · rw [h]; exact Or.inl rfl
      · rw [IsLetter_ascii U hlt] at hl
        rw [ToLower_ascii U hlt]
        unfold kebabByte
        split_ifs <;> omega
    refine ⟨_, toKebab_ascii U b rest hascii, ?_⟩
    rw [List.map_cons, toKebab_ascii U]
    · rw [sepOut_kebabByte U _ _ hkb hlbd, List.map_cons, ToLower_ToLower_ascii U hb,
        map_ToLower_kebabByte U _ hkb]
    · intro x hx
      rcases List.mem_cons.mp hx with h | h
      · rw [h]; exact hlb
      · exact kebabByte_lt (hkb x h)

/-- C6 (as stated, refuted): `toKebab` maps `getUserByID123` to
`get-user-by-id-123`, and maps that string, already in kebab form, to
`get-user-by-id--123`. -/
theorem C6_toKebab_not_idempotent :
    ¬ ∀ (U : UnicodeTables) (s k : GoString),
      toKebab U s = some k → toKebab U k = some k := by
  intro h
  have h1 := h latin1Tables (str "getUserByID123") (str "get-user-by-id-123") (by decide)
  have h2 : toKebab latin1Tables (str "get-user-by-id-123") =
      some (str "get-user-by-id--123") := by decide
  rw [h2] at h1
  exact absurd h1 (by decide)

/-- C6 (amended): for an ASCII string without digits, `toKebab` returns a result
and returns that result unchanged when applied to it again. -/
theorem C6_toKebab_idempotent_ascii_nodigit (U : UnicodeTables) (s : GoString)
    (hascii : ∀ b ∈ s, b < 0x80) (hnd : ∀ b ∈ s, ¬ (0x30 ≤ b ∧ b ≤ 0x39)) :
    ∃ k, toKebab U s = some k ∧ toKebab U k = some k :=
  toKebab_idem_of_ascii_nodigit U s hascii hnd

/-- C6 (amended), at `get-user-by-id`. -/
theorem C6_toKebab_idempotent_witness :
    ∃ k, toKebab latin1Tables (str "get-user-by-id") = some k ∧
      toKebab latin1Tables k = some k :=
  C6_toKebab_idempotent_ascii_nodigit latin1Tables (str "get-user-by-id")
    (by decide) (by decide)

/-! ### Plugin discovery -/

/-- C7 (failing inputs): the walk function strips the leading bytes that occur in
`openapi-gen-` (`strings.TrimLeft`), not the literal prefix. The entry
`openapi-gen-grpc-go` (kind `grpc`, name `go`) is registered under kind `rpc`, and
on `openapi-gen-go-rust` (kind `go`, name `rust`) the kind and its `-` are stripped
too, one part is left and `parts[1]` panics. -/
theorem C7_TrimLeft_strips_into_kind :
    walkFn [] (str "/usr/bin/openapi-gen-grpc-go") =
      some [(str "rpc", [⟨str "go", str "rpc", str "/usr/bin/openapi-gen-grpc-go"⟩])] ∧
    walkFn [] (str "/usr/bin/openapi-gen-go-rust") = none := by
  decide

/-- C8 (failing input): on the entry `openapi-gen-broken` the walk function panics
on `parts[1]`, whatever the map holds, and a scan that meets it registers
nothing, the well-formed entry after it included. -/
theorem C8_malformed_name_panics :
    (∀ params : Registry, walkFn params (str "/usr/bin/openapi-gen-broken") = none) ∧
    discover [[str "/usr/bin/openapi-gen-broken", str "/usr/bin/openapi-gen-cli-go"]] =
      none := by
  refine ⟨fun params => ?_, by decide⟩
  have hb : stringsHasPrefix (filepathBase (str "/usr/bin/openapi-gen-broken")) pluginPrefix
      = true := by decide
  have hp : stringsSplitN2
      (stringsTrimLeft (filepathBase (str "/usr/bin/openapi-gen-broken")) pluginPrefix)
      (str "-") = [str "broken"] := by decide
  simp only [walkFn, hb, if_true, hp]
  rfl

/-! ### `SplitReverse` -/

theorem mapParts_append_singleton (fn : Option (GoString → Option GoString))
    (l : List GoString) (p : GoString) :
    mapParts fn (l ++ [p]) =
      match applyFn fn p with
      | none => none
      | some q =>
        match mapParts fn l with
        | none => none
        | some qs => some (qs ++ [q]) := by
  induction l with
  | nil =>
    simp only [List.nil_append, mapParts]
  | cons a l ih =>
    show mapParts fn (a :: (l ++ [p])) = _
    simp only [mapParts]
    rw [ih]
    cases applyFn fn a <;> cases applyFn fn p <;> cases mapParts fn l <;> rfl

theorem splitReverseLoop_eq (parts : List GoString) (fn : Option (GoString → Option GoString)) :
    ∀ (n : Nat), n ≤ parts.length → ∀ (acc : List GoString),
      splitReverseLoop parts fn n acc =
        match mapParts fn (parts.take n) with
        | none => none
        | some qs => some (acc ++ qs.reverse) := by
  intro n
  induction n with
  | zero => intro _ acc; simp [splitReverseLoop, mapParts]
  | succ n ih =>
    intro hn acc
    have hlt : n < parts.length := hn
    have hget : parts[n]? = some parts[n] := List.getElem?_eq_getElem hlt
    have htake : parts.take (n + 1) = parts.take n ++ [parts[n]] := by
      rw [List.take_succ, hget]; rfl
    simp only [splitReverseLoop, hget, htake, mapParts_append_singleton]
    cases applyFn fn parts[n] with
    | none => rfl
    | some q =>
      simp only [ih (Nat.le_of_lt hlt)]
      cases mapParts fn (List.take n parts) with
      | none => rfl
      | some qs => simp

theorem SplitReverse_eq_spec (s sep : GoString) (fn : Option (GoString → Option GoString)) :
    SplitReverse s sep fn = reverseSplitSpec s sep fn := by
  unfold SplitReverse reverseSplitSpec
  rw [splitReverseLoop_eq _ fn _ (Nat.le_refl _) [], List.take_length]
  cases mapParts fn (stringsSplit s sep) <;> simp

theorem mapParts_total (f : GoString → GoString) (l : List GoString) :
    mapParts (some fun p => some (f p)) l = some (l.map f) := by
  induction l with
  | nil => rfl
  | cons a l ih => simp [mapParts, applyFn, ih]

theorem mapParts_nil_fn (l : List GoString) : mapParts none l = some l := by
  induction l with
  | nil => rfl
  | cons a l ih => simp [mapParts, applyFn, ih]

theorem splitFrom_ne_nil (sep : GoString) (rest : GoString) :
    ∀ (k : Nat) (cur : GoString), splitFrom sep k cur rest ≠ [] := by
  induction rest with
  | nil => intro k cur; simp [splitFrom]
  | cons b rest ih =>
    intro k cur
    cases k with
    | succ k => simp only [splitFrom]; exact ih k cur
    | zero =>
      simp only [splitFrom]
      split
      · simp
      · exact ih 0 _

theorem stringsJoin_cons (a : GoString) (l : List GoString) (sep : GoString) (hl : l ≠ []) :
    stringsJoin (a :: l) sep = a ++ sep ++ stringsJoin l sep := by
  cases l with
  | nil => exact absurd rfl hl
  | cons b l => rfl

theorem stringsJoin_splitFrom (sep : GoString) (hsep : sep ≠ []) (rest : GoString) :
    ∀ (k : Nat) (cur : GoString), k ≤ rest.length →
      stringsJoin (splitFrom sep k cur rest) sep = cur ++ rest.drop k := by
  induction rest with
  | nil =>
    intro k cur hk
    have : k = 0 := Nat.le_zero.mp hk
    subst this
    simp [splitFrom, stringsJoin]
  | cons b rest ih =>
    intro k cur hk
    cases k with
    | succ k =>
      simp only [splitFrom, List.drop_succ_cons]
      exact ih k cur (Nat.le_of_succ_le_succ hk)
    | zero =>
      simp only [splitFrom, List.drop_zero]
      split
      · rename_i hpre
        have hp : sep <+: b :: rest := List.isPrefixOf_iff_prefix.mp hpre
        have hlen : sep.length ≤ rest.length + 1 := by
          have := hp.length_le; simpa using this
        have hpos : 0 < sep.length := List.length_pos.mpr hsep
        have heq : sep ++ List.drop sep.length (b :: rest) = b :: rest :=
          List.prefix_iff_eq_append.mp hp
        have hdrop : List.drop sep.length (b :: rest) = List.drop (sep.length - 1) rest := by
          obtain ⟨n, hn⟩ : ∃ n, sep.length = n + 1 := ⟨sep.length - 1, by omega⟩
          rw [hn, List.drop_succ_cons, Nat.add_sub_cancel]
        rw [stringsJoin_cons _ _ _ (splitFrom_ne_nil sep rest _ _),
          ih (sep.length - 1) [] (by omega), List.nil_append, ← hdrop, List.append_assoc, heq]
      · rw [ih 0 (cur ++ [b]) (Nat.zero_le _)]
        simp

/-- Joining the segments of `strings.Split(s, sep)` with `sep` gives back `s`. -/
theorem stringsJoin_stringsSplit (s sep : GoString) (hsep : sep ≠ []) :
    stringsJoin (stringsSplit s sep) sep = s := by
  have := stringsJoin_splitFrom sep hsep s 0 [] (Nat.zero_le _)
  simpa [stringsSplit] using this

theorem upperFirst_congr (U V : UnicodeTables) (p : GoString)
    (h : ∀ b ∈ p.head?, b ≤ 0xFF) : upperFirst U p = upperFirst V p := by
  cases p with
  | nil => rfl
  | cons b rest =>
    simp only [upperFirst]
    rw [ToUpper_congr U V (h b (by simp))]

theorem mapParts_congr (f g : GoString → Option GoString) (l : List GoString)
    (h : ∀ p ∈ l, f p = g p) : mapParts (some f) l = mapParts (some g) l := by
  induction l with
  | nil => rfl
  | cons a l ih =>
    simp only [mapParts, applyFn]
    rw [h a (List.mem_cons_self _ _), ih (fun p hp => h p (List.mem_cons_of_mem _ hp))]

/-- The second call of `SplitReverse` in `main`, `example.co.mz` with the
uppercase-first function, returns `Mz.Co.Example`, whatever the tables are. -/
theorem SplitReverse_example_co_mz (U : UnicodeTables) :
    SplitReverse (str "example.co.mz") (str ".") (some (upperFirst U)) =
      some (str "Mz.Co.Example") := by
  have hc : ∀ p ∈ stringsSplit (str "example.co.mz") (str "."),
      upperFirst U p = upperFirst latin1Tables p := fun p hp =>
    upperFirst_congr U latin1Tables p
      ((by decide : ∀ p ∈ stringsSplit (str "example.co.mz") (str "."),
        ∀ b ∈ p.head?, b ≤ 0xFF) p hp)
  rw [SplitReverse_eq_spec, reverseSplitSpec, mapParts_congr _ _ _ hc]
  decide

/-- C9: for a non-empty separator, `SplitReverse s sep fn` is the specification
`reverseSplitSpec`: the segments of `s` split on `sep` (empty segments kept), each
mapped through `fn`, in reversed order, joined with `.` whatever `sep` is. With
`fn = nil` the segments are left as they are; with a function that never panics
every segment is mapped; a function that panics on a segment makes both sides
panic. The segments are those of `s`: joined with `sep` they give back `s`. -/
theorem C9_SplitReverse_spec (s sep : GoString) (fn : Option (GoString → Option GoString))
    (f : GoString → GoString) (hsep : sep ≠ []) :
    SplitReverse s sep fn = reverseSplitSpec s sep fn ∧
    SplitReverse s sep none = some (stringsJoin (stringsSplit s sep).reverse (str ".")) ∧
    SplitReverse s sep (some fun p => some (f p)) =
      some (stringsJoin ((stringsSplit s sep).map f).reverse (str ".")) ∧
    stringsJoin (stringsSplit s sep) sep = s := by
  refine ⟨SplitReverse_eq_spec s sep fn, ?_, ?_, stringsJoin_stringsSplit s sep hsep⟩
  · rw [SplitReverse_eq_spec, reverseSplitSpec, mapParts_nil_fn]; rfl
  · rw [SplitReverse_eq_spec, reverseSplitSpec, mapParts_total]; rfl

/-- C9, at the examples of the specification: `a.b.c` gives `c.b.a`, `a..b` gives
`b..a` (the empty segment is kept), `example.co.mz` with the uppercase-first
function of `main` gives `Mz.Co.Example`, and with the separator `::` the result
is still joined with `.`. -/
theorem C9_SplitReverse_examples :
    SplitReverse (str "a.b.c") (str ".") none = some (str "c.b.a") ∧
    SplitReverse (str "a..b") (str ".") none = some (str "b..a") ∧
    SplitReverse (str "example.co.mz") (str ".") (some (upperFirst latin1Tables)) =
      some (str "Mz.Co.Example") ∧
    SplitReverse (str "a::b") (str "::") none = some (str "b.a") :=
  ⟨((C9_SplitReverse_spec (str "a.b.c") (str ".") none id (by decide)).2.1).trans (by decide),
   ((C9_SplitReverse_spec (str "a..b") (str ".") none id (by decide)).2.1).trans (by decide),
   ((C9_SplitReverse_spec (str "example.co.mz") (str ".") (some (upperFirst latin1Tables)) id
      (by decide)).1).trans (by decide),
   ((C9_SplitReverse_spec (str "a::b") (str "::") none id (by decide)).2.1).trans (by decide)⟩

/-! ### `toCamel` and the digit boundary -/

theorem rangeString_tail_offset (s : GoString) : ∀ ic ∈ (rangeString s).tail, ic.1 ≠ 0 := by
  cases s with
  | nil => intro ic h; simp [rangeString, rangeFrom] at h
  | cons b rest =>
    intro ic h
    rw [rangeString_cons, List.tail_cons] at h
    exact Nat.pos_iff_ne_zero.mp (rangeFrom_offset_ge rest _ _ ic h)

theorem camelStep_digit_flag (U : UnicodeTables) (st : GoString × Bool) (i d : Nat)
    (hd : IsDigit U d = true) (h0 : i = 0 → st.2 = false) :
    (camelStep U st (i, d)).2 = false := by
  simp only [camelStep, hd, Bool.not_true, Bool.false_and]
  by_cases hi : i = 0
  · simp [hi, h0 hi]
  · simp only [hi, if_false]
    cases h : st.2 <;> simp [h]

theorem camelStep_letter_noflag (U : UnicodeTables) (st : GoString × Bool) (j c : Nat)
    (hj : j ≠ 0) (hc : IsLetter U c = true) (hf : st.2 = false) :
    camelStep U st (j, c) = (st.1 ++ EncodeRune c, false) := by
  simp [camelStep, hj, hc, hf, WriteRune]

/-- C10 (as stated, refuted): in `a1b` the letter `b` immediately follows the digit
`1`, and `toCamel` does not emit it in uppercase: the result is not what was
written up to the digit, then `B`, then the rest. -/
theorem C10_toCamel_no_digit_boundary :
    ¬ ∀ (U : UnicodeTables) (s : GoString) (pre post : List (Nat × Nat)) (i d j c : Nat),
      rangeString s = pre ++ (i, d) :: (j, c) :: post →
      IsDigit U d = true → IsLetter U c = true →
      toCamel U s = ((pre ++ [(i, d)]).foldl (camelStep U) ([], false)).1 ++
        EncodeRune (ToUpper U c) ++ (post.foldl (camelStep U) ([], false)).1 := by
  intro h
  have h1 := h latin1Tables (str "a1b") [(0, 0x61)] [] 1 0x31 2 0x62 (by decide) (by decide)
    (by decide)
  exact absurd h1 (by decide)

/-- C10 (amended): `toCamel` has no digit boundary. At every position after the
first where a letter immediately follows a digit, `toCamel` emits that letter
unchanged: the result is what was written up to the digit, then the letter as it
is, then what the rest of the string writes. -/
theorem C10_toCamel_letter_after_digit_unchanged (U : UnicodeTables) (s : GoString)
    (pre post : List (Nat × Nat)) (i d j c : Nat)
    (h : rangeString s = pre ++ (i, d) :: (j, c) :: post)
    (hd : IsDigit U d = true) (hc : IsLetter U c = true) :
    toCamel U s = ((pre ++ [(i, d)]).foldl (camelStep U) ([], false)).1 ++
      EncodeRune c ++ (post.foldl (camelStep U) ([], false)).1 := by
  have htail := rangeString_tail_offset s
  rw [h] at htail
  have hj : j ≠ 0 := htail (j, c) (by cases pre <;> simp)
  have hpost : ∀ ic ∈ post, ic.1 ≠ 0 := fun ic hic =>
    htail ic (by cases pre <;> simp [hic])
  have hflag : ((pre ++ [(i, d)]).foldl (camelStep U) ([], false)).2 = false := by
    rw [List.foldl_append, List.foldl_cons, List.foldl_nil]
    apply camelStep_digit_flag U _ i d hd
    intro hi
    cases pre with
    | nil => rfl
    | cons x pre =>
      exfalso
      have : (i, d).1 ≠ 0 := htail (i, d) (by simp)
      exact this hi
  unfold toCamel
  rw [h, show pre ++ (i, d) :: (j, c) :: post = (pre ++ [(i, d)]) ++ (j, c) :: post by simp,
    List.foldl_append, List.foldl_cons,
    camelStep_letter_noflag U _ j c hj hc hflag]
  have := camelFold_append U
    (((pre ++ [(i, d)]).foldl (camelStep U) ([], false)).1 ++ EncodeRune c) post hpost [] false
  simp only [List.append_nil] at this
  rw [this]

/-- C10 (amended), at `a1b`: `toCamel` returns `a1b`. -/
theorem C10_toCamel_letter_after_digit_witness :
    toCamel latin1Tables (str "a1b") = str "a1" ++ EncodeRune 0x62 ++ [] :=
  C10_toCamel_letter_after_digit_unchanged latin1Tables (str "a1b") [(0, 0x61)] [] 1 0x31 2 0x62
    (by decide) (by decide) (by decide)

/-! ### Totality of the transforms -/

theorem rangeFrom_offset_lt (s : GoString) :
    ∀ (i k : Nat) (ic : Nat × Nat), ic ∈ rangeFrom i k s → ic.1 < i + s.length := by
  induction s with
  | nil => intro i k ic h; simp [rangeFrom] at h
  | cons b rest ih =>
    intro i k ic h
    cases k with
    | zero =>
      simp only [rangeFrom, List.mem_cons] at h
      rcases h with h | h
      · rw [h]; simp
      · have := ih _ _ _ h
        simp only [List.length_cons]; omega
    | succ k =>
      simp only [rangeFrom] at h
      have := ih _ _ _ h
      simp only [List.length_cons]; omega

theorem rangeString_offset_lt (s : GoString) : ∀ ic ∈ rangeString s, ic.1 < s.length := by
  intro ic h
  have := rangeFrom_offset_lt s 0 0 ic h
  omega

/-- The read `s[i-1]` is within bounds at every offset `i ≠ 0` that `range s` yields. -/
theorem prev_byte_in_bounds (s : GoString) (ic : Nat × Nat) (h : ic ∈ rangeString s)
    (_ : ic.1 ≠ 0) : ∃ p, s[ic.1 - 1]? = some p := by
  have hlt := rangeString_offset_lt s ic h
  have : ic.1 - 1 < s.length := by omega
  exact ⟨s[ic.1 - 1], List.getElem?_eq_getElem this⟩

theorem kebabStep_total (U : UnicodeTables) (s buf : GoString) (ic : Nat × Nat)
    (h : ic.1 < s.length) : ∃ b, kebabStep U s buf ic = some b := by
  by_cases hi : ic.1 = 0
  · exact ⟨WriteRune buf ic.2, by simp only [kebabStep, hi, if_true]⟩
  · have hlt : ic.1 - 1 < s.length := by omega
    exact ⟨_, kebabStep_eq U s buf ic.1 s[ic.1 - 1] ic.2 hi (List.getElem?_eq_getElem hlt)⟩

theorem snakeStep_total (U : UnicodeTables) (s buf : GoString) (ic : Nat × Nat)
    (h : ic.1 < s.length) : ∃ b, snakeStep U s buf ic = some b := by
  by_cases hi : ic.1 = 0
  · exact ⟨WriteRune buf (ToLower U ic.2), by simp only [snakeStep, hi, if_true]⟩
  · have hlt : ic.1 - 1 < s.length := by omega
    exact ⟨_, snakeStep_eq U s buf ic.1 s[ic.1 - 1] ic.2 hi (List.getElem?_eq_getElem hlt)⟩

theorem kebabLoop_total (U : UnicodeTables) (s : GoString) (l : List (Nat × Nat))
    (hl : ∀ ic ∈ l, ic.1 < s.length) (buf : GoString) :
    ∃ b, kebabLoop U s l buf = some b := by
  induction l generalizing buf with
  | nil => exact ⟨buf, rfl⟩
  | cons ic l ih =>
    obtain ⟨b, hb⟩ := kebabStep_total U s buf ic (hl ic (List.mem_cons_self _ _))
    simp only [kebabLoop, hb]
    exact ih (fun x hx => hl x (List.mem_cons_of_mem _ hx)) b

theorem snakeLoop_total (U : UnicodeTables) (s : GoString) (l : List (Nat × Nat))
    (hl : ∀ ic ∈ l, ic.1 < s.length) (buf : GoString) :
    ∃ b, snakeLoop U s l buf = some b := by
  induction l generalizing buf with
  | nil => exact ⟨buf, rfl⟩
  | cons ic l ih =>
    obtain ⟨b, hb⟩ := snakeStep_total U s buf ic (hl ic (List.mem_cons_self _ _))
    simp only [snakeLoop, hb]
    exact ih (fun x hx => hl x (List.mem_cons_of_mem _ hx)) b

/-- The function `toKebab` returns a result on every input. -/
theorem toKebab_total (U : UnicodeTables) (s : GoString) : ∃ k, toKebab U s = some k := by
  obtain ⟨b, hb⟩ := kebabLoop_total U s (rangeString s) (rangeString_offset_lt s) []
  exact ⟨stringsToLower U b, by simp only [toKebab, hb, Option.map_some']⟩

/-- The function `toSnake` returns a result on every input. -/
theorem toSnake_total (U : UnicodeTables) (s : GoString) : ∃ k, toSnake U s = some k := by
  obtain ⟨b, hb⟩ := snakeLoop_total U s (rangeString s) (rangeString_offset_lt s) []
  exact ⟨stringsToLower U b, by simp only [toSnake, hb, Option.map_some']⟩

/-- C11: all six transforms are total. On every byte string, also the empty one, one
of punctuation only or one that is not valid UTF-8, `toKebab`, `toSnake`, `toFlag`
and `toEnum` return a result (they do not panic), `toCamel` and `toPascal` have no
operation that can fail, and at every offset `i ≠ 0` that `range s` yields the
read `s[i-1]` of `toKebab` and `toSnake` is within bounds. -/
theorem C11_transforms_total (U : UnicodeTables) (s : GoString) :
    (∃ k, toKebab U s = some k) ∧ (∃ k, toSnake U s = some k) ∧
    (∃ k, toCamel U s = k) ∧ (∃ k, toPascal U s = k) ∧
    (∃ k, toFlag U s = some k) ∧ (∃ k, toEnum U s = some k) ∧
    (∀ ic ∈ rangeString s, ic.1 ≠ 0 → ∃ p, s[ic.1 - 1]? = some p) := by
  obtain ⟨k, hk⟩ := toKebab_total U s
  obtain ⟨n, hn⟩ := toSnake_total U s
  refine ⟨⟨k, hk⟩, ⟨n, hn⟩, ⟨_, rfl⟩, ⟨_, rfl⟩, ⟨str "--" ++ k, ?_⟩,
    ⟨stringsToUpper U n, ?_⟩, fun ic h h0 => prev_byte_in_bounds s ic h h0⟩
  · simp only [toFlag, hk, Option.map_some']
  · simp only [toEnum, hn, Option.map_some']

/-- C15: for every string `s`, `toKebab s` returns some `k` and `toFlag s` returns
`--` followed by `k`. -/
theorem C15_toFlag_eq_dashes_toKebab (U : UnicodeTables) (s : GoString) :
    ∃ k, toKebab U s = some k ∧ toFlag U s = some (0x2D :: 0x2D :: k) := by
  obtain ⟨k, hk⟩ := toKebab_total U s
  refine ⟨k, hk, ?_⟩
  simp only [toFlag, hk, Option.map_some']
  rfl

/-- C16: for every string `s`, `toSnake s` returns some `k` and `toEnum s` returns
the uppercase form `strings.ToUpper k`. -/
theorem C16_toEnum_eq_upper_toSnake (U : UnicodeTables) (s : GoString) :
    ∃ k, toSnake U s = some k ∧ toEnum U s = some (stringsToUpper U k) := by
  obtain ⟨k, hk⟩ := toSnake_total U s
  exact ⟨k, hk, by simp only [toEnum, hk, Option.map_some']⟩

/-! ### The registry that discovery builds -/

theorem mapGet_mapSet_self (m : Registry) (k : GoString) (v : List Plugin) :
    mapGet (mapSet m k v) k = some v := by
  induction m with
  | nil => simp [mapSet, mapGet]
  | cons kv m ih =>
    obtain ⟨k1, v1⟩ := kv
    by_cases h : k1 = k
    · simp [mapSet, mapGet, h]
    · simp [mapSet, mapGet, h, ih]

theorem mapGet_mapSet_ne (m : Registry) (k k2 : GoString) (v : List Plugin) (hne : k2 ≠ k) :
    mapGet (mapSet m k v) k2 = mapGet m k2 := by
  induction m with
  | nil => simp [mapSet, mapGet, Ne.symm hne]
  | cons kv m ih =>
    obtain ⟨k1, v1⟩ := kv
    by_cases h : k1 = k
    · have h2 : ¬ k1 = k2 := fun h3 => hne (h3 ▸ h)
      simp [mapSet, mapGet, h, h2, Ne.symm hne]
    · by_cases h2 : k1 = k2
      · subst h2; simp [mapSet, mapGet, h]
      · simp [mapSet, mapGet, h, h2, ih]

theorem mapGet_mem (m : Registry) (k : GoString) (v : List Plugin)
    (h : mapGet m k = some v) : (k, v) ∈ m := by
  induction m with
  | nil => simp [mapGet] at h
  | cons kv m ih =>
    obtain ⟨k1, v1⟩ := kv
    by_cases h1 : k1 = k
    · simp only [mapGet, h1, if_true, Option.some.injEq] at h
      rw [h1, h]; exact List.mem_cons_self _ _
    · simp only [mapGet, h1, if_false] at h
      exact List.mem_cons_of_mem _ (ih h)

theorem kindsMatchKeys_mapSet (m : Registry) (k : GoString) (v : List Plugin)
    (hm : kindsMatchKeys m) (hv : ∀ p ∈ v, p.Kind = k) : kindsMatchKeys (mapSet m k v) := by
  induction m with
  | nil =>
    intro kv hkv p hp
    simp only [mapSet, List.mem_singleton] at hkv
    rw [hkv] at hp ⊢; exact hv p hp
  | cons kv m ih =>
    obtain ⟨k1, v1⟩ := kv
    have hm1 : kindsMatchKeys m := fun x hx => hm x (List.mem_cons_of_mem _ hx)
    intro x hx p hp
    by_cases h : k1 = k
    · simp only [mapSet, h, if_true, List.mem_cons] at hx
      rcases hx with hx | hx
      · rw [hx] at hp ⊢; exact hv p hp
      · exact hm1 x hx p hp
    · simp only [mapSet, h, if_false, List.mem_cons] at hx
      rcases hx with hx | hx
      · exact hm (k1, v1) (List.mem_cons_self _ _) p (hx ▸ hp) |> fun e => by rw [hx]; exact e
      · exact ih hm1 x hx p hp

/-- What a call of the walk function that does not panic returns: the map as it
was, or the map with one plugin appended under the kind read from the name. -/
theorem walkFn_some (params reg : Registry) (path : GoString)
    (h : walkFn params path = some reg) :
    reg = params ∨ ∃ kind nm : GoString,
      reg = mapSet (if (mapGet params kind).isNone then mapSet params kind [] else params) kind
        ((mapGet (if (mapGet params kind).isNone then mapSet params kind [] else params)
          kind).getD [] ++ [{ Name := nm, Kind := kind, Path := path }]) := by
  simp only [walkFn] at h
  split at h
  · split at h
    · exact absurd h (by simp)
    · rename_i kind _
      split at h
      · exact absurd h (by simp)
      · rename_i nm _
        exact Or.inr ⟨kind, nm, (Option.some.inj h).symm⟩
  · exact Or.inl (Option.some.inj h).symm

theorem walkFn_kindsMatchKeys (params reg : Registry) (path : GoString)
    (h : walkFn params path = some reg) (hm : kindsMatchKeys params) :
    kindsMatchKeys reg := by
  rcases walkFn_some params reg path h with h1 | ⟨kind, nm, h1⟩
  · rw [h1]; exact hm
  · rw [h1]
    have hp1 : kindsMatchKeys
        (if (mapGet params kind).isNone then mapSet params kind [] else params) := by
      split
      · exact kindsMatchKeys_mapSet params kind [] hm (fun p hp => by simp at hp)
      · exact hm
    apply kindsMatchKeys_mapSet _ _ _ hp1
    intro p hp
    rcases List.mem_append.mp hp with hp | hp
    · cases hg : mapGet (if (mapGet params kind).isNone then mapSet params kind [] else params)
          kind with
      | none => rw [hg] at hp; simp at hp
      | some v =>
        rw [hg] at hp
        exact hp1 (kind, v) (mapGet_mem _ _ _ hg) p hp
    · simp only [List.mem_singleton] at hp
      rw [hp]

theorem walkDir_kindsMatchKeys (paths : List GoString) :
    ∀ (params reg : Registry), walkDir params paths = some reg → kindsMatchKeys params →
      kindsMatchKeys reg := by
  induction paths with
  | nil =>
    intro params reg h hm
    simp only [walkDir, Option.some.injEq] at h
    rw [← h]; exact hm
  | cons path rest ih =>
    intro params reg h hm
    simp only [walkDir] at h
    cases hw : walkFn params path with
    | none => rw [hw] at h; exact absurd h (by simp)
    | some p1 =>
      rw [hw] at h
      exact ih p1 reg h (walkFn_kindsMatchKeys params p1 path hw hm)

theorem discoverFrom_kindsMatchKeys (dirs : List (List GoString)) :
    ∀ (params reg : Registry), discoverFrom params dirs = some reg → kindsMatchKeys params →
      kindsMatchKeys reg := by
  induction dirs with
  | nil =>
    intro params reg h hm
    simp only [discoverFrom, Option.some.injEq] at h
    rw [← h]; exact hm
  | cons dir rest ih =>
    intro params reg h hm
    simp only [discoverFrom] at h
    cases hw : walkDir params dir with
    | none => rw [hw] at h; exact absurd h (by simp)
    | some p1 =>
      rw [hw] at h
      exact ih p1 reg h (walkDir_kindsMatchKeys dir params p1 hw hm)

/-- C13: after a discovery scan that completes, whatever the scanned paths were,
every plugin stored in the registry list under a key `k` has `Kind = k`. -/
theorem C13_registry_kind_eq_key (dirs : List (List GoString)) (reg : Registry)
    (h : discover dirs = some reg) :
    ∀ (k : GoString) (l : List Plugin), (k, l) ∈ reg → ∀ p ∈ l, p.Kind = k := by
  intro k l hkl p hp
  exact discoverFrom_kindsMatchKeys dirs [] reg h (fun kv hkv => by simp at hkv) (k, l) hkl p hp

/-- C13, at a scan of two directories with four entries, one of them not a plugin:
the scan completes, and the plugin `ts` stored under the key `cli` has kind `cli`. -/
theorem C13_registry_kind_eq_key_witness :
    discover [[str "/a/openapi-gen-cli-go", str "/a/readme", str "/a/openapi-gen-lib-rust"],
        [str "/b/openapi-gen-cli-ts"]] =
      some [(str "cli", [⟨str "go", str "cli", str "/a/openapi-gen-cli-go"⟩,
                ⟨str "ts", str "cli", str "/b/openapi-gen-cli-ts"⟩]),
            (str "lib", [⟨str "rust", str "lib", str "/a/openapi-gen-lib-rust"⟩])] ∧
    (⟨str "ts", str "cli", str "/b/openapi-gen-cli-ts"⟩ : Plugin).Kind = str "cli" :=
  ⟨by decide,
   C13_registry_kind_eq_key
    [[str "/a/openapi-gen-cli-go", str "/a/readme", str "/a/openapi-gen-lib-rust"],
     [str "/b/openapi-gen-cli-ts"]]
    [(str "cli", [⟨str "go", str "cli", str "/a/openapi-gen-cli-go"⟩,
        ⟨str "ts", str "cli", str "/b/openapi-gen-cli-ts"⟩]),
     (str "lib", [⟨str "rust", str "lib", str "/a/openapi-gen-lib-rust"⟩])]
    (by decide) (str "cli")
    [⟨str "go", str "cli", str "/a/openapi-gen-cli-go"⟩,
     ⟨str "ts", str "cli", str "/b/openapi-gen-cli-ts"⟩]
    (by decide) ⟨str "ts", str "cli", str "/b/openapi-gen-cli-ts"⟩ (by decide)⟩

/-! ### Well-formed entries -/

theorem hasPrefix_wellFormed (kind name : GoString) :
    stringsHasPrefix (pluginPrefix ++ kind ++ str "-" ++ name) pluginPrefix = true := by
  unfold stringsHasPrefix
  rw [List.isPrefixOf_iff_prefix, List.append_assoc, List.append_assoc]
  exact List.prefix_append _ _

theorem trimLeft_wellFormed (kind name : GoString)
    (hk : kind = str "cli" ∨ kind = str "lib") :
    stringsTrimLeft (pluginPrefix ++ kind ++ str "-" ++ name) pluginPrefix =
      kind ++ str "-" ++ name := by
  rcases hk with hk | hk <;> subst hk <;> rfl

theorem cutFirst_byte_ne (d b : Nat) (rest : GoString) (h : b ≠ d) :
    cutFirst [d] (b :: rest) =
      match cutFirst [d] rest with
      | none => none
      | some (before, after) => some (b :: before, after) := by
  have hp : List.isPrefixOf [d] (b :: rest) = false := by
    simp [List.isPrefixOf, Ne.symm h]
  simp only [cutFirst, hp]
  rfl

theorem cutFirst_byte_eq (d : Nat) (rest : GoString) :
    cutFirst [d] (d :: rest) = some ([], rest) := by
  have hp : List.isPrefixOf [d] (d :: rest) = true := by simp [List.isPrefixOf]
  simp only [cutFirst, hp, if_true]
  rfl

theorem splitN2_wellFormed (kind name : GoString)
    (hk : kind = str "cli" ∨ kind = str "lib") :
    stringsSplitN2 (kind ++ str "-" ++ name) (str "-") = [kind, name] := by
  have hd : str "-" = [0x2D] := by decide
  have hc : str "cli" = [0x63, 0x6C, 0x69] := by decide
  have hl : str "lib" = [0x6C, 0x69, 0x62] := by decide
  rcases hk with hk | hk <;> subst hk
  · rw [hd, hc]
    simp only [stringsSplitN2, List.cons_append, List.nil_append]
    rw [cutFirst_byte_ne _ _ _ (by decide), cutFirst_byte_ne _ _ _ (by decide),
      cutFirst_byte_ne _ _ _ (by decide), cutFirst_byte_eq]
  · rw [hd, hl]
    simp only [stringsSplitN2, List.cons_append, List.nil_append]
    rw [cutFirst_byte_ne _ _ _ (by decide), cutFirst_byte_ne _ _ _ (by decide),
      cutFirst_byte_ne _ _ _ (by decide), cutFirst_byte_eq]

/-- On a well-formed entry the walk function appends the entry's plugin to the list
under the entry's kind. -/
theorem walkFn_wellFormed (params : Registry) (e : Entry) (h : e.wellFormed) :
    walkFn params e.path =
      some (mapSet (if (mapGet params e.kind).isNone then mapSet params e.kind [] else params)
        e.kind
        ((mapGet (if (mapGet params e.kind).isNone then mapSet params e.kind [] else params)
          e.kind).getD [] ++ [e.toPlugin])) := by
  obtain ⟨hk, hb⟩ := h
  simp only [walkFn, hb, hasPrefix_wellFormed, if_true, trimLeft_wellFormed _ _ hk,
    splitN2_wellFormed _ _ hk]
  rfl

theorem walkFn_wellFormed_get (params : Registry) (e : Entry) (h : e.wellFormed) :
    ∃ reg, walkFn params e.path = some reg ∧
      mapGet reg e.kind = some ((mapGet params e.kind).getD [] ++ [e.toPlugin]) ∧
      ∀ k, k ≠ e.kind → mapGet reg k = mapGet params k := by
  refine ⟨_, walkFn_wellFormed params e h, ?_, ?_⟩
  · rw [mapGet_mapSet_self]
    cases hg : mapGet params e.kind with
    | none => simp [mapGet_mapSet_self]
    | some v => simp [hg]
  · intro k hk
    rw [mapGet_mapSet_ne _ _ _ _ hk]
    cases hg : mapGet params e.kind with
    | none => simp [mapGet_mapSet_ne _ _ _ _ hk]
    | some v => simp

theorem walkDir_wellFormed (es : List Entry) (hes : ∀ e ∈ es, e.wellFormed) :
    ∀ (params : Registry), ∃ reg, walkDir params (es.map Entry.path) = some reg ∧
      ∀ k, mapGet reg k =
        appendedTo (mapGet params k) (pluginsOfKind k (es.map Entry.toPlugin)) := by
  induction es with
  | nil => intro params; exact ⟨params, rfl, fun k => by simp [appendedTo, pluginsOfKind]⟩
  | cons e es ih =>
    intro params
    obtain ⟨reg1, h1, hself, hother⟩ :=
      walkFn_wellFormed_get params e (hes e (List.mem_cons_self _ _))
    obtain ⟨reg, h2, hget⟩ := ih (fun x hx => hes x (List.mem_cons_of_mem _ hx)) reg1
    refine ⟨reg, by simp only [List.map_cons, walkDir, h1, h2], fun k => ?_⟩
    rw [hget k]
    by_cases hk : k = e.kind
    · subst hk
      have hf : pluginsOfKind e.kind (List.map Entry.toPlugin (e :: es)) =
          e.toPlugin :: pluginsOfKind e.kind (List.map Entry.toPlugin es) := by
        simp [pluginsOfKind, Entry.toPlugin]
      rw [hf, hself]
      simp only [appendedTo]
      split <;> simp_all
    · have hf : pluginsOfKind k (List.map Entry.toPlugin (e :: es)) =
          pluginsOfKind k (List.map Entry.toPlugin es) := by
        have : ¬ e.kind = k := fun h => hk h.symm
        simp [pluginsOfKind, Entry.toPlugin, this]
      rw [hf, hother k hk]

theorem walkDir_append (a b : List GoString) :
    ∀ (params : Registry), walkDir params (a ++ b) =
      match walkDir params a with
      | none => none
      | some p1 => walkDir p1 b := by
  induction a with
  | nil => intro params; rfl
  | cons x a ih =>
    intro params
    simp only [List.cons_append, walkDir]
    cases walkFn params x with
    | none => rfl
    | some p1 => exact ih p1

theorem discoverFrom_eq_walkDir (dirs : List (List GoString)) :
    ∀ (params : Registry), discoverFrom params dirs = walkDir params dirs.flatten := by
  induction dirs with
  | nil => intro params; rfl
  | cons d dirs ih =>
    intro params
    simp only [discoverFrom, List.flatten_cons, walkDir_append]
    cases walkDir params d with
    | none => rfl
    | some p1 => exact ih p1

theorem flatten_map_map {α β : Type} (f : α → β) (l : List (List α)) :
    (l.map fun d => d.map f).flatten = l.flatten.map f := by
  induction l with
  | nil => rfl
  | cons d l ih => simp only [List.map_cons, List.flatten_cons, List.map_append, ih]

theorem walkFn_other (params : Registry) (path : GoString)
    (h : stringsHasPrefix (filepathBase path) pluginPrefix = false) :
    walkFn params path = some params := by
  simp [walkFn, h]

theorem pluginsOfKind_append (k : GoString) (a b : List Plugin) :
    pluginsOfKind k (a ++ b) = pluginsOfKind k a ++ pluginsOfKind k b := by
  simp [pluginsOfKind]

theorem appendedTo_appendedTo (o : Option (List Plugin)) (a b : List Plugin) :
    appendedTo (appendedTo o a) b = appendedTo o (a ++ b) := by
  unfold appendedTo
  by_cases ha : a = []
  · subst ha; simp
  · by_cases hb : b = []
    · subst hb; simp [ha]
    · simp [ha, hb]

/-- A scan of one directory whose visited paths are admissible: the walk does not
panic, and under every kind the scanned plugins of that kind are appended, in
order. -/
theorem walkDir_visited (vs : List Visited) (hvs : ∀ v ∈ vs, v.admissible) :
    ∀ (params : Registry), ∃ reg, walkDir params (vs.map Visited.path) = some reg ∧
      ∀ k, mapGet reg k =
        appendedTo (mapGet params k) (pluginsOfKind k (vs.flatMap Visited.plugins)) := by
  induction vs with
  | nil => intro params; exact ⟨params, rfl, fun k => by simp [appendedTo, pluginsOfKind]⟩
  | cons v vs ih =>
    intro params
    have hv := hvs v (List.mem_cons_self _ _)
    have hrest : ∀ x ∈ vs, x.admissible := fun x hx => hvs x (List.mem_cons_of_mem _ hx)
    cases v with
    | other p =>
      obtain ⟨reg, h2, hget⟩ := ih hrest params
      refine ⟨reg, ?_, fun k => ?_⟩
      · simp only [List.map_cons, Visited.path, walkDir, walkFn_other params p hv, h2]
      · rw [hget k]
        simp only [List.flatMap_cons, Visited.plugins, List.nil_append]
    | entry e =>
      obtain ⟨reg1, h1, _, _⟩ := walkFn_wellFormed_get params e hv
      obtain ⟨mid, hmid, hmidget⟩ := walkDir_wellFormed [e]
        (fun x hx => by rw [List.mem_singleton.mp hx]; exact hv) params
      obtain ⟨reg, h2, hget⟩ := ih hrest mid
      refine ⟨reg, ?_, fun k => ?_⟩
      · simp only [List.map_cons, List.map_nil, walkDir] at hmid
        rw [h1] at hmid
        simp only [Option.some.injEq] at hmid
        simp only [List.map_cons, Visited.path, walkDir, h1, hmid, h2]
      · rw [hget k, hmidget k, appendedTo_appendedTo, ← pluginsOfKind_append]
        simp only [List.map_cons, List.map_nil, List.flatMap_cons, Visited.plugins]

/-- C12: for every scan of directories in which each visited path is either an
entry named `openapi-gen-cli-<name>` or `openapi-gen-lib-<name>`, or a path whose base
name does not start with `openapi-gen-` (the directory itself, which `filepath.Walk`
always visits first, a sub-directory, any other file), discovery returns a registry
in which the list under each kind `k` is exactly the scanned plugins of kind `k`,
in scan order, duplicates kept; a kind without a scanned plugin is no key of the
registry. -/
theorem C12_registry_grouping (dirs : List (List Visited))
    (h : ∀ d ∈ dirs, ∀ v ∈ d, v.admissible) :
    ∃ reg, discover (dirs.map fun d => d.map Visited.path) = some reg ∧
      ∀ k, mapGet reg k =
        if pluginsOfKind k (dirs.flatten.flatMap Visited.plugins) = [] then none
        else some (pluginsOfKind k (dirs.flatten.flatMap Visited.plugins)) := by
  have hvs : ∀ v ∈ dirs.flatten, v.admissible := by
    intro v hv
    obtain ⟨d, hd, hvd⟩ := List.mem_flatten.mp hv
    exact h d hd v hvd
  obtain ⟨reg, hreg, hget⟩ := walkDir_visited dirs.flatten hvs []
  refine ⟨reg, ?_, fun k => ?_⟩
  · rw [discover, discoverFrom_eq_walkDir, flatten_map_map]; exact hreg
  · rw [hget k]
    simp [appendedTo, mapGet]

/-- C12, at the example of the specification: the walk of `d1` visits `/d1` itself
and `/d1/openapi-gen-cli-go`, the walk of `d2` visits `/d2` itself and
`/d2/openapi-gen-lib-rust`; the registry has exactly the two kinds `cli` and `lib`,
with the single plugins `go` and `rust`. -/
theorem C12_registry_grouping_witness :
    (∃ reg, discover [[str "/d1", str "/d1/openapi-gen-cli-go"],
          [str "/d2", str "/d2/openapi-gen-lib-rust"]] = some reg ∧
      ∀ k, mapGet reg k =
        if pluginsOfKind k [⟨str "go", str "cli", str "/d1/openapi-gen-cli-go"⟩,
            ⟨str "rust", str "lib", str "/d2/openapi-gen-lib-rust"⟩] = [] then none
        else some (pluginsOfKind k [⟨str "go", str "cli", str "/d1/openapi-gen-cli-go"⟩,
            ⟨str "rust", str "lib", str "/d2/openapi-gen-lib-rust"⟩])) ∧
    discover [[str "/d1", str "/d1/openapi-gen-cli-go"],
        [str "/d2", str "/d2/openapi-gen-lib-rust"]] =
      some [(str "cli", [⟨str "go", str "cli", str "/d1/openapi-gen-cli-go"⟩]),
            (str "lib", [⟨str "rust", str "lib", str "/d2/openapi-gen-lib-rust"⟩])] :=
  ⟨C12_registry_grouping
      [[Visited.other (str "/d1"),
        Visited.entry ⟨str "/d1/openapi-gen-cli-go", str "cli", str "go"⟩],
       [Visited.other (str "/d2"),
        Visited.entry ⟨str "/d2/openapi-gen-lib-rust", str "lib", str "rust"⟩]]
      (by
        intro d hd v hv
        simp only [List.mem_cons, List.mem_singleton, List.not_mem_nil, or_false] at hd
        rcases hd with hd | hd <;> subst hd <;>
          (simp only [List.mem_cons, List.mem_singleton, List.not_mem_nil, or_false] at hv
           rcases hv with hv | hv <;> subst hv
           · show stringsHasPrefix (filepathBase _) pluginPrefix = false
             decide
           · exact ⟨by decide, by decide⟩)),
    by decide⟩

/-! ### The byte in front of a rune -/

/-- C14 (failing input): in `éA` the uppercase `A` is immediately preceded by the
lowercase letter `é` (U+00E9, two bytes). The loop reads `s[i-1]`, the last byte
`0xA9` of `é`, which as a rune is `©` and not lowercase, so no `-` is written:
`toKebab` returns `éa`. -/
theorem C14_last_byte_of_previous_rune (U : UnicodeTables) :
    rangeString (str "éA") = [(0, 0xE9), (2, 0x41)] ∧
    IsLower U 0xE9 = true ∧ IsUpper U 0x41 = true ∧
    (str "éA")[2 - 1]? = some 0xA9 ∧ IsLower U 0xA9 = false ∧
    toKebab U (str "éA") = some (str "éa") := by
  refine ⟨by decide, ?_, ?_, by decide, ?_, ?_⟩
  · rw [IsLower_congr U latin1Tables (by norm_num)]; decide
  · rw [IsUpper_congr U latin1Tables (by norm_num)]; decide
  · rw [IsLower_congr U latin1Tables (by norm_num)]; decide
  · rw [toKebab_congr U latin1Tables (by decide) (by decide)]; decide

/-! ### `toKebab` twice, `SplitReverse` twice -/

/-- C18: for every ASCII string without a digit, `toKebab` returns a result and
`toKebab(toKebab(s)) = toKebab(s)`. -/
theorem C18_toKebab_twice_ascii_nodigit (U : UnicodeTables) (s : GoString)
    (hascii : ∀ b ∈ s, b < 0x80) (hnd : ∀ b ∈ s, ¬ (0x30 ≤ b ∧ b ≤ 0x39)) :
    (toKebab U s).isSome = true ∧ (toKebab U s).bind (toKebab U) = toKebab U s := by
  obtain ⟨k, h1, h2⟩ := toKebab_idem_of_ascii_nodigit U s hascii hnd
  rw [h1]
  exact ⟨rfl, by simp only [Option.some_bind, h2]⟩

/-- C18, at `getUserByID`. -/
theorem C18_toKebab_twice_witness :
    (toKebab latin1Tables (str "getUserByID")).isSome = true ∧
    (toKebab latin1Tables (str "getUserByID")).bind (toKebab latin1Tables) =
      toKebab latin1Tables (str "getUserByID") :=
  C18_toKebab_twice_ascii_nodigit latin1Tables (str "getUserByID") (by decide) (by decide)

theorem splitFrom_byte_eq (d : Nat) (cur rest : GoString) :
    splitFrom [d] 0 cur (d :: rest) = cur :: splitFrom [d] 0 [] rest := by
  have hp : List.isPrefixOf [d] (d :: rest) = true := by simp [List.isPrefixOf]
  simp only [splitFrom, hp, if_true, List.length_singleton, Nat.sub_self]

theorem splitFrom_byte_ne (d b : Nat) (cur rest : GoString) (h : b ≠ d) :
    splitFrom [d] 0 cur (b :: rest) = splitFrom [d] 0 (cur ++ [b]) rest := by
  have hp : List.isPrefixOf [d] (b :: rest) = false := by
    simp [List.isPrefixOf, Ne.symm h]
  simp only [splitFrom, hp]
  rfl

theorem splitFrom_byte_append (d : Nat) (a : GoString) (ha : d ∉ a) :
    ∀ (cur rest : GoString), splitFrom [d] 0 cur (a ++ rest) = splitFrom [d] 0 (cur ++ a) rest := by
  induction a with
  | nil => intro cur rest; simp
  | cons b a ih =>
    intro cur rest
    have hb : b ≠ d := fun h => ha (h ▸ List.mem_cons_self _ _)
    rw [List.cons_append, splitFrom_byte_ne d b cur _ hb,
      ih (fun h => ha (List.mem_cons_of_mem _ h))]
    simp

/-- Splitting a join: segments without the separator byte are found again. -/
theorem splitFrom_stringsJoin (d : Nat) (a : GoString) (l : List GoString)
    (hl : ∀ x ∈ a :: l, d ∉ x) :
    ∀ (cur : GoString), splitFrom [d] 0 cur (stringsJoin (a :: l) [d]) = (cur ++ a) :: l := by
  induction l generalizing a with
  | nil =>
    intro cur
    have := splitFrom_byte_append d a (hl a (List.mem_cons_self _ _)) cur []
    simp only [List.append_nil] at this
    simp only [stringsJoin, this, splitFrom]
  | cons b l ih =>
    intro cur
    have h1 : stringsJoin (a :: b :: l) [d] = a ++ (d :: stringsJoin (b :: l) [d]) := by
      simp [stringsJoin]
    rw [h1, splitFrom_byte_append d a (hl a (List.mem_cons_self _ _)), splitFrom_byte_eq,
      ih b (fun x hx => hl x (List.mem_cons_of_mem _ hx)) []]
    simp

/-- No segment of a split on one byte contains that byte. -/
theorem splitFrom_byte_not_mem (d : Nat) (rest : GoString) :
    ∀ (cur : GoString), d ∉ cur → ∀ seg ∈ splitFrom [d] 0 cur rest, d ∉ seg := by
  induction rest with
  | nil =>
    intro cur hc seg hseg
    simp only [splitFrom, List.mem_singleton] at hseg
    rw [hseg]; exact hc
  | cons b rest ih =>
    intro cur hc seg hseg
    by_cases hb : b = d
    · subst hb
      rw [splitFrom_byte_eq] at hseg
      rcases List.mem_cons.mp hseg with h | h
      · rw [h]; exact hc
      · exact ih [] (by simp) seg h
    · rw [splitFrom_byte_ne d b cur rest hb] at hseg
      refine ih (cur ++ [b]) ?_ seg hseg
      simp only [List.mem_append, List.mem_singleton, not_or]
      exact ⟨hc, fun h => hb h.symm⟩

theorem SplitReverse_nil_fn (s sep : GoString) :
    SplitReverse s sep none = some (stringsJoin (stringsSplit s sep).reverse (str ".")) := by
  rw [SplitReverse_eq_spec, reverseSplitSpec, mapParts_nil_fn]; rfl

/-- C20: label reversal is an involution. For every string `s`,
`SplitReverse(s, ".", nil)` returns some `t` and `SplitReverse(t, ".", nil)` returns
`s`. -/
theorem C20_SplitReverse_involution (s : GoString) :
    (SplitReverse s (str ".") none).bind (fun t => SplitReverse t (str ".") none) = some s := by
  have hd : str "." = [0x2E] := by decide
  rw [SplitReverse_nil_fn, Option.some_bind, SplitReverse_nil_fn, hd]
  have hne : (stringsSplit s [0x2E]).reverse ≠ [] := by
    simp only [ne_eq, List.reverse_eq_nil_iff]
    exact splitFrom_ne_nil [0x2E] s 0 []
  have hno : ∀ x ∈ (stringsSplit s [0x2E]).reverse, 0x2E ∉ x := by
    intro x hx
    exact splitFrom_byte_not_mem 0x2E s [] (by simp) x (List.mem_reverse.mp hx)
  have hsplit : stringsSplit (stringsJoin (stringsSplit s [0x2E]).reverse [0x2E]) [0x2E] =
      (stringsSplit s [0x2E]).reverse := by
    cases hr : (stringsSplit s [0x2E]).reverse with
    | nil => exact absurd hr hne
    | cons a l =>
      rw [hr] at hno
      have := splitFrom_stringsJoin 0x2E a l hno []
      simpa [stringsSplit] using this
  rw [hsplit, List.reverse_reverse, stringsJoin_stringsSplit s [0x2E] (by simp)]

/-! ### Tag collection -/

theorem mem_setInsert (tags : List GoString) (t x : GoString) :
    x ∈ setInsert tags t ↔ x ∈ tags ∨ x = t := by
  unfold setInsert
  split
  · rename_i h
    constructor
    · exact Or.inl
    · rintro (h1 | h1)
      · exact h1
      · rw [h1]; exact h
  · simp

theorem nodup_setInsert (tags : List GoString) (t : GoString) (h : tags.Nodup) :
    (setInsert tags t).Nodup := by
  unfold setInsert
  split
  · exact h
  · rename_i hn
    rw [List.nodup_append]
    refine ⟨h, List.nodup_singleton t, ?_⟩
    intro a ha hb
    simp only [List.mem_singleton] at hb
    exact hn (hb ▸ ha)

theorem mem_collectFirstTag (tags opTags : List GoString) (x : GoString) :
    x ∈ collectFirstTag tags opTags ↔ x ∈ tags ∨ opTags.head? = some x := by
  cases opTags with
  | nil => simp [collectFirstTag]
  | cons t rest =>
    simp only [collectFirstTag, mem_setInsert, List.head?_cons, Option.some.injEq]
    constructor
    · rintro (h | h)
      · exact Or.inl h
      · exact Or.inr h.symm
    · rintro (h | h)
      · exact Or.inl h
      · exact Or.inr h.symm

theorem nodup_collectFirstTag (tags opTags : List GoString) (h : tags.Nodup) :
    (collectFirstTag tags opTags).Nodup := by
  cases opTags with
  | nil => exact h
  | cons t rest => exact nodup_setInsert tags t h

theorem operationStep_eq (unmarshal : GoString → Option GoString) (U : UnicodeTables)
    (tags : List GoString) (op : OperationDoc) (h : extensionDecodes unmarshal op = true) :
    operationStep unmarshal U tags op = some (collectFirstTag tags op.Tags) := by
  obtain ⟨k, hk⟩ := toKebab_total U op.OperationID
  obtain ⟨n, hn⟩ := toSnake_total U op.OperationID
  have hf : toFlag U op.OperationID = some (str "--" ++ k) := by
    simp only [toFlag, hk, Option.map_some']
  have he : toEnum U op.OperationID = some (stringsToUpper U n) := by
    simp only [toEnum, hn, Option.map_some']
  unfold extensionDecodes at h
  obtain ⟨u, hu⟩ := Option.isSome_iff_exists.mp h
  simp only [operationStep, hu, hk, hn, hf, he]

theorem operationsLoop_spec (unmarshal : GoString → Option GoString) (U : UnicodeTables)
    (ops : List (GoString × OperationDoc))
    (hext : ∀ mo ∈ ops, extensionDecodes unmarshal mo.2 = true) :
    ∀ (tags : List GoString), ∃ out, operationsLoop unmarshal U tags ops = some out ∧
      (∀ x, x ∈ out ↔ x ∈ tags ∨ ∃ mo ∈ ops, mo.2.Tags.head? = some x) ∧
      (tags.Nodup → out.Nodup) := by
  induction ops with
  | nil => intro tags; exact ⟨tags, rfl, fun x => by simp, id⟩
  | cons mo ops ih =>
    intro tags
    obtain ⟨out, hout, hmem, hnd⟩ :=
      ih (fun x hx => hext x (List.mem_cons_of_mem _ hx)) (collectFirstTag tags mo.2.Tags)
    refine ⟨out, ?_, fun x => ?_, fun h => hnd (nodup_collectFirstTag _ _ h)⟩
    · simp only [operationsLoop,
        operationStep_eq unmarshal U tags mo.2 (hext mo (List.mem_cons_self _ _)), hout]
    · rw [hmem x, mem_collectFirstTag]
      simp only [List.mem_cons, exists_eq_or_imp]
      exact or_assoc

theorem pathsLoop_spec (unmarshal : GoString → Option GoString) (U : UnicodeTables)
    (paths : List (GoString × List (GoString × OperationDoc)))
    (hext : ∀ pv ∈ paths, ∀ mo ∈ pv.2, extensionDecodes unmarshal mo.2 = true) :
    ∀ (tags : List GoString), ∃ out, pathsLoop unmarshal U tags paths = some out ∧
      (∀ x, x ∈ out ↔ x ∈ tags ∨ ∃ pv ∈ paths, ∃ mo ∈ pv.2, mo.2.Tags.head? = some x) ∧
      (tags.Nodup → out.Nodup) := by
  induction paths with
  | nil => intro tags; exact ⟨tags, rfl, fun x => by simp, id⟩
  | cons pv paths ih =>
    intro tags
    obtain ⟨mid, hmid, hmem1, hnd1⟩ :=
      operationsLoop_spec unmarshal U pv.2 (hext pv (List.mem_cons_self _ _)) tags
    obtain ⟨out, hout, hmem, hnd⟩ :=
      ih (fun x hx => hext x (List.mem_cons_of_mem _ hx)) mid
    refine ⟨out, ?_, fun x => ?_, fun h => hnd (hnd1 h)⟩
    · simp only [pathsLoop, hmid, hout]
    · rw [hmem x, hmem1 x]
      simp only [List.mem_cons, exists_eq_or_imp]
      exact or_assoc

/-- C17: for every document in which each extension `x-operation-name` that is
present decodes, whatever the order in which paths and methods are visited,
`cmdRoot` collects a set of tags whose members are exactly the name of the
document's first top-level tag (if it declares any) and the first tag of each
operation that declares at least one; second and later tags contribute nothing,
and no member occurs twice. -/
theorem C17_collected_tags (unmarshal : GoString → Option GoString) (U : UnicodeTables)
    (doc : Document)
    (hext : ∀ pv ∈ doc.Paths, ∀ mo ∈ pv.2, extensionDecodes unmarshal mo.2 = true) :
    ∃ tags, collectTags unmarshal U doc = some tags ∧
      (∀ x, x ∈ tags ↔ doc.Tags.head? = some x ∨
        ∃ pv ∈ doc.Paths, ∃ mo ∈ pv.2, mo.2.Tags.head? = some x) ∧
      tags.Nodup := by
  obtain ⟨out, hout, hmem, hnd⟩ :=
    pathsLoop_spec unmarshal U doc.Paths hext (collectFirstTag [] doc.Tags)
  refine ⟨out, hout, fun x => ?_, hnd (nodup_collectFirstTag _ _ List.nodup_nil)⟩
  rw [hmem x, mem_collectFirstTag]
  simp

/-- C17, at a document with top-level tags `pets`, `admin` and three operations
tagged `pets, store`, `users` and (none): the collected set is `pets`, `users`. -/
theorem C17_collected_tags_witness :
    ∃ tags,
      collectTags (fun raw => some raw) latin1Tables
        { Tags := [str "pets", str "admin"],
          Paths := [(str "/pets", [(str "GET", ⟨[str "pets", str "store"], str "listPets",
                        some (some (str "custom_op"))⟩),
                      (str "POST", ⟨[str "users"], str "addUser", none⟩)]),
                    (str "/ping", [(str "GET", ⟨[], str "ping", none⟩)])] } = some tags ∧
      (∀ x, x ∈ tags ↔ [str "pets", str "admin"].head? = some x ∨
        ∃ pv ∈ [(str "/pets", [(str "GET", (⟨[str "pets", str "store"], str "listPets",
                        some (some (str "custom_op"))⟩ : OperationDoc)),
                      (str "POST", ⟨[str "users"], str "addUser", none⟩)]),
                    (str "/ping", [(str "GET", ⟨[], str "ping", none⟩)])],
          ∃ mo ∈ pv.2, mo.2.Tags.head? = some x) ∧
      tags.Nodup :=
  C17_collected_tags (fun raw => some raw) latin1Tables
    { Tags := [str "pets", str "admin"],
      Paths := [(str "/pets", [(str "GET", ⟨[str "pets", str "store"], str "listPets",
                    some (some (str "custom_op"))⟩),
                  (str "POST", ⟨[str "users"], str "addUser", none⟩)]),
                (str "/ping", [(str "GET", ⟨[], str "ping", none⟩)])] }
    (by decide)

/-! ### Decoding what the builder holds -/

theorem rangeFrom_succ (i k b : Nat) (rest : GoString) :
    rangeFrom i (k + 1) (b :: rest) = rangeFrom (i + 1) k rest := rfl

theorem rangeFrom_zero (i b : Nat) (rest : GoString) :
    rangeFrom i 0 (b :: rest) =
      (i, (DecodeRuneInString (b :: rest)).1) ::
        rangeFrom (i + 1) ((DecodeRuneInString (b :: rest)).2 - 1) rest := rfl

theorem rangeFrom_skip (t : GoString) :
    ∀ (i : Nat) (rest : GoString),
      rangeFrom i t.length (t ++ rest) = rangeFrom (i + t.length) 0 rest := by
  induction t with
  | nil => intro i rest; rfl
  | cons b t ih =>
    intro i rest
    rw [List.length_cons, List.cons_append, rangeFrom_succ, ih (i + 1) rest]
    congr 1
    omega

theorem EncodeRune_ne_nil (r : Nat) : EncodeRune r ≠ [] := by
  unfold EncodeRune
  split_ifs <;> simp

theorem rangeFrom_EncodeRune (r : Nat) (hr : validRune r) (i : Nat) (rest : GoString) :
    rangeFrom i 0 (EncodeRune r ++ rest) =
      (i, r) :: rangeFrom (i + (EncodeRune r).length) 0 rest := by
  have hdec := DecodeRuneInString_EncodeRune r hr rest
  cases he : EncodeRune r with
  | nil => exact absurd he (EncodeRune_ne_nil r)
  | cons b t =>
    rw [he] at hdec
    rw [List.cons_append] at hdec
    rw [List.cons_append, rangeFrom_zero, hdec]
    simp only [List.length_cons, Nat.add_sub_cancel]
    rw [rangeFrom_skip t (i + 1) rest]
    congr 2
    omega

theorem rangeFrom_encodeRunes (rs : List Nat) (hrs : ∀ r ∈ rs, validRune r) :
    ∀ (i : Nat), (rangeFrom i 0 (encodeRunes rs)).map Prod.snd = rs := by
  induction rs with
  | nil => intro i; rfl
  | cons r rs ih =>
    intro i
    have hcons : encodeRunes (r :: rs) = EncodeRune r ++ encodeRunes rs := by
      simp [encodeRunes]
    rw [hcons, rangeFrom_EncodeRune r (hrs r (List.mem_cons_self _ _)), List.map_cons,
      ih (fun x hx => hrs x (List.mem_cons_of_mem _ hx))]

/-- The function `strings.Map` on the encoding of valid runes maps the runes. -/
theorem stringsMap_encodeRunes (f : Nat → Nat) (rs : List Nat)
    (hrs : ∀ r ∈ rs, validRune r) :
    stringsMap f (encodeRunes rs) = encodeRunes (rs.map f) := by
  have h := rangeFrom_encodeRunes rs hrs 0
  unfold stringsMap rangeString
  have h2 : (rangeFrom 0 0 (encodeRunes rs)).flatMap (fun ic => EncodeRune (f ic.2)) =
      ((rangeFrom 0 0 (encodeRunes rs)).map Prod.snd).flatMap (fun r => EncodeRune (f r)) := by
    rw [List.flatMap_map]
  rw [h2, h]
  simp [encodeRunes, List.flatMap_map]

theorem rangeFrom_valid (s : GoString) :
    ∀ (i k : Nat), ∀ ic ∈ rangeFrom i k s, validRune ic.2 := by
  induction s with
  | nil => intro i k ic h; simp [rangeFrom] at h
  | cons b rest ih =>
    intro i k ic h
    cases k with
    | zero =>
      simp only [rangeFrom, List.mem_cons] at h
      rcases h with h | h
      · rw [h]; exact DecodeRuneInString_valid _
      · exact ih _ _ ic h
    | succ k =>
      simp only [rangeFrom] at h
      exact ih _ _ ic h

theorem seqInfo_lead {s0 sz lo hi : Nat} (h : seqInfo s0 = some (sz, lo, hi)) :
    (sz = 2 ∧ 0xC2 ≤ s0 ∧ s0 ≤ 0xDF) ∨
    (sz = 3 ∧ 0xE0 ≤ s0 ∧ s0 ≤ 0xEF ∧ 0x80 ≤ lo ∧ hi ≤ 0xBF ∧ (s0 = 0xE0 → lo = 0xA0)) ∨
    (sz = 4 ∧ 0xF0 ≤ s0 ∧ s0 ≤ 0xF4 ∧ 0x80 ≤ lo ∧ hi ≤ 0xBF ∧ (s0 = 0xF0 → lo = 0x90)) := by
  unfold seqInfo at h
  split_ifs at h <;> simp only [Option.some.injEq, Prod.mk.injEq] at h <;>
    (obtain ⟨rfl, rfl, rfl⟩ := h; omega)

/-- A rune below `0x80` that `range` yields is the byte it was decoded from. -/
theorem DecodeRuneInString_lt (s0 : Nat) (rest : GoString)
    (h : (DecodeRuneInString (s0 :: rest)).1 < 0x80) :
    (DecodeRuneInString (s0 :: rest)).1 = s0 := by
  have herr : ¬ RuneError < 0x80 := by unfold RuneError; omega
  simp only [DecodeRuneInString] at h ⊢
  split at h
  · rename_i h0; simp only [if_pos h0]
  · exfalso
    cases hs : seqInfo s0 with
    | none => rw [hs] at h; exact herr h
    | some t =>
      obtain ⟨sz, lo, hi⟩ := t
      have hc := seqInfo_lead hs
      rw [hs] at h
      simp only at h
      split_ifs at h <;> first
        | exact herr h
        | (simp only at h; omega)

theorem rangeFrom_rune_lt_mem (s : GoString) :
    ∀ (i k : Nat), ∀ ic ∈ rangeFrom i k s, ic.2 < 0x80 → ic.2 ∈ s := by
  induction s with
  | nil => intro i k ic h; simp [rangeFrom] at h
  | cons b rest ih =>
    intro i k ic h hlt
    cases k with
    | zero =>
      rw [rangeFrom_zero, List.mem_cons] at h
      rcases h with h | h
      · rw [h] at hlt ⊢
        simp only at hlt ⊢
        rw [DecodeRuneInString_lt b rest hlt]
        exact List.mem_cons_self _ _
      · exact List.mem_cons_of_mem _ (ih _ _ ic h hlt)
    | succ k =>
      rw [rangeFrom_succ] at h
      exact List.mem_cons_of_mem _ (ih _ _ ic h hlt)

/-! ### The separator loops as lists of runes -/

theorem encodeRunes_append (a b : List Nat) :
    encodeRunes (a ++ b) = encodeRunes a ++ encodeRunes b := by
  simp [encodeRunes]

theorem encodeRunes_cons (r : Nat) (rs : List Nat) :
    encodeRunes (r :: rs) = EncodeRune r ++ encodeRunes rs := by
  simp [encodeRunes]

theorem sepPiece_eq_encodeRunes (U : UnicodeTables) (sep p c : Nat) :
    sepPiece U sep p c = encodeRunes (sepRunes U sep p c) := by
  unfold sepPiece sepRunes
  split_ifs <;> simp [encodeRunes]

theorem getElem?_prev (s : GoString) (i : Nat) (_ : i ≠ 0) (hlt : i < s.length) :
    s[i - 1]? = some (s.getD (i - 1) 0) := by
  have h : i - 1 < s.length := by omega
  rw [List.getD_eq_getElem?_getD, List.getElem?_eq_getElem h]
  rfl

theorem kebabLoop_runes (U : UnicodeTables) (s : GoString) (l : List (Nat × Nat))
    (hl : ∀ ic ∈ l, ic.1 ≠ 0 ∧ ic.1 < s.length) :
    ∀ (buf : GoString),
      kebabLoop U s l buf = some (buf ++ encodeRunes (loopRunes U 0x2D s l)) := by
  induction l with
  | nil => intro buf; simp [kebabLoop, loopRunes, encodeRunes]
  | cons ic l ih =>
    intro buf
    obtain ⟨h0, hlt⟩ := hl ic (List.mem_cons_self _ _)
    have hstep := kebabStep_eq U s buf ic.1 _ ic.2 h0 (getElem?_prev s ic.1 h0 hlt)
    simp only [kebabLoop, hstep]
    rw [ih (fun x hx => hl x (List.mem_cons_of_mem _ hx))]
    simp only [loopRunes, encodeRunes_append, sepPiece_eq_encodeRunes, List.append_assoc]

theorem snakeLoop_runes (U : UnicodeTables) (s : GoString) (l : List (Nat × Nat))
    (hl : ∀ ic ∈ l, ic.1 ≠ 0 ∧ ic.1 < s.length) :
    ∀ (buf : GoString),
      snakeLoop U s l buf = some (buf ++ encodeRunes (loopRunes U 0x5F s l)) := by
  induction l with
  | nil => intro buf; simp [snakeLoop, loopRunes, encodeRunes]
  | cons ic l ih =>
    intro buf
    obtain ⟨h0, hlt⟩ := hl ic (List.mem_cons_self _ _)
    have hstep := snakeStep_eq U s buf ic.1 _ ic.2 h0 (getElem?_prev s ic.1 h0 hlt)
    simp only [snakeLoop, hstep]
    rw [ih (fun x hx => hl x (List.mem_cons_of_mem _ hx))]
    simp only [loopRunes, encodeRunes_append, sepPiece_eq_encodeRunes, List.append_assoc]

theorem sepRunes_mem (U : UnicodeTables) (sep p c : Nat) :
    ∀ r ∈ sepRunes U sep p c, r = sep ∨ r = c := by
  intro r hr
  unfold sepRunes at hr
  split_ifs at hr <;> simp at hr <;> tauto

theorem loopRunes_mem (U : UnicodeTables) (sep : Nat) (s : GoString) (l : List (Nat × Nat)) :
    ∀ r ∈ loopRunes U sep s l, r = sep ∨ ∃ ic ∈ l, ic.2 = r := by
  induction l with
  | nil => intro r hr; simp [loopRunes] at hr
  | cons ic l ih =>
    intro r hr
    simp only [loopRunes, List.mem_append] at hr
    rcases hr with hr | hr
    · rcases sepRunes_mem U sep _ _ r hr with h | h
      · exact Or.inl h
      · exact Or.inr ⟨ic, List.mem_cons_self _ _, h.symm⟩
    · rcases ih r hr with h | ⟨x, hx, h⟩
      · exact Or.inl h
      · exact Or.inr ⟨x, List.mem_cons_of_mem _ hx, h⟩

/-- The pairs of `range s` after the first. -/
theorem rangeString_tail_facts (b : Nat) (bs : GoString) :
    ∀ ic ∈ rangeFrom 1 ((DecodeRuneInString (b :: bs)).2 - 1) bs,
      (ic.1 ≠ 0 ∧ ic.1 < (b :: bs).length) ∧ validRune ic.2 ∧
        (ic.2 < 0x80 → ic.2 ∈ bs) := by
  intro ic hic
  refine ⟨⟨Nat.pos_iff_ne_zero.mp (rangeFrom_offset_ge bs _ _ ic hic), ?_⟩,
    rangeFrom_valid bs _ _ ic hic, rangeFrom_rune_lt_mem bs _ _ ic hic⟩
  have := rangeFrom_offset_lt bs _ _ ic hic
  simp only [List.length_cons]; omega

/-- The result of `toKebab` on a non-empty string, as runes: the first rune, then
what the iterations write, all mapped through `ToLower`. -/
theorem toKebab_runes (U : UnicodeTables) (b : Nat) (bs : GoString) :
    toKebab U (b :: bs) = some (encodeRunes
      (((DecodeRuneInString (b :: bs)).1 :: loopRunes U 0x2D (b :: bs)
        (rangeFrom 1 ((DecodeRuneInString (b :: bs)).2 - 1) bs)).map (ToLower U))) := by
  have hf := rangeString_tail_facts b bs
  have hloop := kebabLoop_runes U (b :: bs) _ (fun ic hic => (hf ic hic).1)
    (EncodeRune (DecodeRuneInString (b :: bs)).1)
  unfold toKebab
  rw [rangeString_cons]
  simp only [kebabLoop, kebabStep, if_true, WriteRune, List.nil_append]
  rw [hloop, Option.map_some', ← encodeRunes_cons]
  unfold stringsToLower
  rw [stringsMap_encodeRunes]
  intro r hr
  rcases List.mem_cons.mp hr with h | h
  · rw [h]; exact DecodeRuneInString_valid _
  · rcases loopRunes_mem U _ _ _ r h with h1 | ⟨ic, hic, h1⟩
    · rw [h1]; unfold validRune; omega
    · rw [← h1]; exact (hf ic hic).2.1

/-- The result of `toSnake` on a non-empty string, as runes, when the lowered first
rune is a Unicode scalar value. -/
theorem toSnake_runes (U : UnicodeTables) (b : Nat) (bs : GoString)
    (hv : validRune (ToLower U (DecodeRuneInString (b :: bs)).1)) :
    toSnake U (b :: bs) = some (encodeRunes
      ((ToLower U (DecodeRuneInString (b :: bs)).1 :: loopRunes U 0x5F (b :: bs)
        (rangeFrom 1 ((DecodeRuneInString (b :: bs)).2 - 1) bs)).map (ToLower U))) := by
  have hf := rangeString_tail_facts b bs
  have hloop := snakeLoop_runes U (b :: bs) _ (fun ic hic => (hf ic hic).1)
    (EncodeRune (ToLower U (DecodeRuneInString (b :: bs)).1))
  unfold toSnake
  rw [rangeString_cons]
  simp only [snakeLoop, snakeStep, if_true, WriteRune, List.nil_append]
  rw [hloop, Option.map_some', ← encodeRunes_cons]
  unfold stringsToLower
  rw [stringsMap_encodeRunes]
  intro r hr
  rcases List.mem_cons.mp hr with h | h
  · rw [h]; exact hv
  · rcases loopRunes_mem U _ _ _ r h with h1 | ⟨ic, hic, h1⟩
    · rw [h1]; unfold validRune; omega
    · rw [← h1]; exact (hf ic hic).2.1

/-! ### `toSnake` against `toKebab` -/

theorem replaceByte_append (a b : Nat) (x y : GoString) :
    replaceByte a b (x ++ y) = replaceByte a b x ++ replaceByte a b y := by
  simp [replaceByte]

theorem sepRunes_swap (U : UnicodeTables) (p c : Nat) (hk : c ≠ 0x2D) (hs : c ≠ 0x5F) :
    sepRunes U 0x5F p c = replaceByte 0x2D 0x5F (sepRunes U 0x2D p c) := by
  have h1 : (c != 0x5F) = true := by simp [hs]
  have h2 : (c != 0x2D) = true := by simp [hk]
  unfold sepRunes
  rw [h1, h2]
  split_ifs <;> simp [replaceByte, hk]

theorem loopRunes_swap (U : UnicodeTables) (s : GoString) (l : List (Nat × Nat))
    (hl : ∀ ic ∈ l, ic.2 ≠ 0x2D ∧ ic.2 ≠ 0x5F) :
    loopRunes U 0x5F s l = replaceByte 0x2D 0x5F (loopRunes U 0x2D s l) := by
  induction l with
  | nil => rfl
  | cons ic l ih =>
    obtain ⟨hk, hs⟩ := hl ic (List.mem_cons_self _ _)
    simp only [loopRunes, replaceByte_append]
    rw [sepRunes_swap U _ _ hk hs, ih (fun x hx => hl x (List.mem_cons_of_mem _ hx))]

theorem ToLower_latin1_le (U : UnicodeTables) {r : Nat} (h : r ≤ 0xFF) :
    ToLower U r ≤ 0xFF ∧ (ToLower U r = 0x2D → r = 0x2D) ∧
      ToLower U (ToLower U r) = ToLower U r := by
  have key : ∀ x ≤ 0xFF, ToLower U x =
      if x ≤ 0x7F then (if 0x41 ≤ x ∧ x ≤ 0x5A then x + 32 else x)
      else if (0xC0 ≤ x ∧ x ≤ 0xD6) ∨ (0xD8 ≤ x ∧ x ≤ 0xDE) then x + 32 else x := by
    intro x hx
    simp only [ToLower, hx, if_true]
  have h1 : ToLower U r ≤ 0xFF := by
    rw [key r h]; split_ifs <;> omega
  refine ⟨h1, ?_, ?_⟩
  · rw [key r h]; split_ifs <;> omega
  · rw [key _ h1, key r h]
    split_ifs <;> omega

theorem ToLower_eq_dash (U : UnicodeTables) (hdash : ∀ r, 0xFF < r → U.toLower r ≠ 0x2D)
    (r : Nat) (h : ToLower U r = 0x2D) : r = 0x2D := by
  by_cases hr : r ≤ 0xFF
  · exact (ToLower_latin1_le U hr).2.1 h
  · exfalso
    have h7 : ¬ r ≤ 0x7F := by omega
    simp only [ToLower, h7, hr, if_false] at h
    exact hdash r (by omega) h

theorem ToLower_idem (U : UnicodeTables)
    (hidem : ∀ r, 0xFF < r → validRune r → ToLower U (U.toLower r) = U.toLower r)
    (r : Nat) (hv : validRune r) : ToLower U (ToLower U r) = ToLower U r := by
  by_cases hr : r ≤ 0xFF
  · exact (ToLower_latin1_le U hr).2.2
  · have h7 : ¬ r ≤ 0x7F := by omega
    have he : ToLower U r = U.toLower r := by simp only [ToLower, h7, hr, if_false]
    rw [he]
    exact hidem r (by omega) hv

theorem ToLower_valid (U : UnicodeTables)
    (hvalid : ∀ r, 0xFF < r → validRune r → validRune (U.toLower r))
    (r : Nat) (hv : validRune r) : validRune (ToLower U r) := by
  by_cases hr : r ≤ 0xFF
  · have := (ToLower_latin1_le U hr).1
    unfold validRune; omega
  · have h7 : ¬ r ≤ 0x7F := by omega
    have he : ToLower U r = U.toLower r := by simp only [ToLower, h7, hr, if_false]
    rw [he]
    exact hvalid r (by omega) hv

/-- The encoding of a rune other than `-` holds no byte `-`. -/
theorem replaceByte_EncodeRune (y : Nat) (hy : y ≠ 0x2D) :
    replaceByte 0x2D 0x5F (EncodeRune y) = EncodeRune y := by
  unfold EncodeRune replaceByte
  split_ifs <;> simp <;> omega

theorem replaceByte_encodeRunes_ToLower (U : UnicodeTables)
    (hdash : ∀ r, 0xFF < r → U.toLower r ≠ 0x2D) (l : List Nat) :
    replaceByte 0x2D 0x5F (encodeRunes (l.map (ToLower U))) =
      encodeRunes ((replaceByte 0x2D 0x5F l).map (ToLower U)) := by
  induction l with
  | nil => rfl
  | cons x l ih =>
    have hc : replaceByte 0x2D 0x5F (x :: l) =
        (if x = 0x2D then 0x5F else x) :: replaceByte 0x2D 0x5F l := rfl
    rw [List.map_cons, encodeRunes_cons, replaceByte_append, ih, hc, List.map_cons,
      encodeRunes_cons]
    congr 1
    by_cases hx : x = 0x2D
    · subst hx
      rw [if_pos rfl, ToLower_ascii U (by norm_num), ToLower_ascii U (by norm_num)]
      decide
    · rw [if_neg hx]
      exact replaceByte_EncodeRune _ (fun h => hx (ToLower_eq_dash U hdash x h))

/-- C19: `toKebab` and `toSnake` segment identically. For every string `s` that
contains neither `-` nor `_`, `toSnake s` is `toKebab s` with every `-` replaced by
`_`. The case mapping beyond Latin-1 is a parameter; what is used of it is that
`ToLower` maps Unicode scalar values to Unicode scalar values, that applying it
twice is applying it once, and that it maps no rune to `-`. -/
theorem C19_toSnake_eq_toKebab_replaced (U : UnicodeTables) (s : GoString)
    (hk : 0x2D ∉ s) (hs : 0x5F ∉ s)
    (hvalid : ∀ r, 0xFF < r → validRune r → validRune (U.toLower r))
    (hidem : ∀ r, 0xFF < r → validRune r → ToLower U (U.toLower r) = U.toLower r)
    (hdash : ∀ r, 0xFF < r → U.toLower r ≠ 0x2D) :
    ∃ k, toKebab U s = some k ∧ toSnake U s = some (replaceByte 0x2D 0x5F k) := by
  cases s with
  | nil => exact ⟨[], rfl, rfl⟩
  | cons b bs =>
    have hf := rangeString_tail_facts b bs
    have hc0v : validRune (DecodeRuneInString (b :: bs)).1 := DecodeRuneInString_valid _
    have hc0 : ∀ d, d < 0x80 → d ∉ b :: bs → (DecodeRuneInString (b :: bs)).1 ≠ d := by
      intro d hd hn h
      have hlt : (DecodeRuneInString (b :: bs)).1 < 0x80 := by omega
      rw [DecodeRuneInString_lt b bs hlt] at h
      exact hn (h ▸ List.mem_cons_self _ _)
    have htl : ∀ ic ∈ rangeFrom 1 ((DecodeRuneInString (b :: bs)).2 - 1) bs,
        ic.2 ≠ 0x2D ∧ ic.2 ≠ 0x5F := by
      intro ic hic
      have hm := (hf ic hic).2.2
      constructor
      · intro h
        exact hk (List.mem_cons_of_mem _ (h ▸ hm (by omega)))
      · intro h
        exact hs (List.mem_cons_of_mem _ (h ▸ hm (by omega)))
    refine ⟨_, toKebab_runes U b bs, ?_⟩
    rw [toSnake_runes U b bs (ToLower_valid U hvalid _ hc0v),
      replaceByte_encodeRunes_ToLower U hdash, loopRunes_swap U _ _ htl]
    have hc : replaceByte 0x2D 0x5F ((DecodeRuneInString (b :: bs)).1 ::
        loopRunes U 0x2D (b :: bs) (rangeFrom 1 ((DecodeRuneInString (b :: bs)).2 - 1) bs)) =
        (DecodeRuneInString (b :: bs)).1 :: replaceByte 0x2D 0x5F
          (loopRunes U 0x2D (b :: bs)
            (rangeFrom 1 ((DecodeRuneInString (b :: bs)).2 - 1) bs)) := by
      show (if (DecodeRuneInString (b :: bs)).1 = 0x2D then 0x5F
        else (DecodeRuneInString (b :: bs)).1) :: _ = _
      rw [if_neg (hc0 0x2D (by norm_num) hk)]
      rfl
    rw [hc, List.map_cons, List.map_cons, ToLower_idem U hidem _ hc0v]

/-- C19, at `get.UserÉcole9x`, with tables that have nothing beyond Latin-1. -/
theorem C19_toSnake_eq_toKebab_replaced_witness :
    ∃ k, toKebab latin1Tables (str "get.UserÉcole9x") = some k ∧
      toSnake latin1Tables (str "get.UserÉcole9x") = some (replaceByte 0x2D 0x5F k) :=
  C19_toSnake_eq_toKebab_replaced latin1Tables (str "get.UserÉcole9x") (by decide) (by decide)
    (fun _ _ hv => hv)
    (fun r hr _ => by
      have h7 : ¬ r ≤ 0x7F := by omega
      have h8 : ¬ r ≤ 0xFF := by omega
      simp only [latin1Tables, id, ToLower, h7, h8, if_false])
    (fun r hr => by
      show r ≠ 0x2D
      omega)

end OpenapiCli
